import Mathlib

/-!
Verification of the mizeria snapshot backup tool.

This file gives a shallow embedding, in Lean 4, of the core of the mizeria
backup program (timestamps, the index file format, the files store path
algebra, the incremental snapshot decision engine, backup-root timestamp
selection and input path validation), together with theorems settling the
frozen claims C1..C10 about it.

Conventions of the embedding:
* `Timestamp` mirrors `src/backup/snapshot/timestamp.rs`.  The Rust type
  wraps `time::PrimitiveDateTime`; we represent it by its calendar fields.
  The derived Rust ordering on `PrimitiveDateTime` is lexicographic on
  (date, time), which on valid timestamps coincides with the lexicographic
  order on (year, month, day, hour, minute) used here.
* Strings handled character by character are modelled as `List Char`;
  the `String` wrappers are provided next to them.
* Filesystem effects are made explicit: directory listings, file metadata
  and copy results enter as data (lists, `Option` values and `Bool` success
  flags), and the store written by a snapshot is an association list from
  store-relative paths to nodes.
-/

namespace Mizeria

/-! ### Decimal digit characters -/

/-- The ten decimal digit characters, in order. -/
def digitCharList : List Char := ['0', '1', '2', '3', '4', '5', '6', '7', '8', '9']

/-- Is `c` a decimal ASCII digit? -/
def isDigitChar (c : Char) : Bool := c ∈ digitCharList

/-- Numeric value of a digit character (`0` for non-digits). -/
def charVal (c : Char) : Nat := digitCharList.indexOf c

/-- The digit character for a value `d < 10` (`'0'` out of range). -/
def digitChar (d : Nat) : Char := digitCharList.getD d '0'

/-- Big-endian decimal digits of `n`, without leading zeros (`[]` for `0`).
`fuel` bounds the recursion; `natCharsAux fuel n` is correct for `n ≤ fuel`. -/
def natCharsAux : Nat → Nat → List Char
  | 0, _ => []
  | fuel + 1, n =>
    if n = 0 then [] else natCharsAux fuel (n / 10) ++ [digitChar (n % 10)]

/-- Big-endian decimal digits of `n`, without leading zeros (`[]` for `0`). -/
def natChars (n : Nat) : List Char := natCharsAux n n

/-- Zero-pad the decimal rendering of `n` on the left to width `w`
(the `Padding::Zero` behaviour of the `time` crate's formatter). -/
def padDigits (w : Nat) (n : Nat) : List Char :=
  List.replicate (w - (natChars n).length) '0' ++ natChars n

/-- Value of a big-endian digit string (used to read renderings back). -/
def valOf (cs : List Char) : Nat := cs.foldl (fun a c => 10 * a + charVal c) 0

theorem charVal_digitChar {d : Nat} (h : d < 10) : charVal (digitChar d) = d := by
  interval_cases d <;> rfl

theorem digitChar_charVal {c : Char} (h : isDigitChar c = true) : digitChar (charVal c) = c := by
  have hmem : c ∈ digitCharList := by
    simpa [isDigitChar] using h
  fin_cases hmem <;> rfl

theorem isDigitChar_digitChar {d : Nat} (h : d < 10) : isDigitChar (digitChar d) = true := by
  interval_cases d <;> rfl

theorem natCharsAux_congr : ∀ f g n, n ≤ f → n ≤ g → natCharsAux f n = natCharsAux g n := by
  intro f
  induction f with
  | zero =>
    intro g n hf _
    interval_cases n
    cases g <;> simp [natCharsAux]
  | succ f ih =>
    intro g n hf hg
    cases g with
    | zero =>
      interval_cases n
      simp [natCharsAux]
    | succ g =>
      by_cases h0 : n = 0
      · simp [natCharsAux, h0]
      · have hdiv : n / 10 ≤ f := by omega
      -- dividing by ten strictly shrinks a positive number
        have hdiv' : n / 10 ≤ g := by
          have := Nat.div_le_self n 10
          omega
        simp only [natCharsAux, h0, if_false]
        rw [ih g (n / 10) hdiv hdiv']

theorem natChars_succ (n : Nat) (h : n ≠ 0) :
    natChars n = natChars (n / 10) ++ [digitChar (n % 10)] := by
  rcases n with _ | m
  · exact absurd rfl h
  · show natCharsAux (m + 1) (m + 1) = _
    have hle : (m + 1) / 10 ≤ m := by
      have := Nat.div_le_self (m + 1) 10
      rcases Nat.lt_or_ge (m + 1) 10 with hlt | hge
      · have : (m + 1) / 10 = 0 := Nat.div_eq_of_lt hlt
        omega
      · have : (m + 1) / 10 < m + 1 := Nat.div_lt_self (by omega) (by omega)
        omega
    simp only [natCharsAux, Nat.succ_ne_zero, if_false]
    rw [natCharsAux_congr m ((m + 1) / 10) ((m + 1) / 10) hle le_rfl]
    rfl

theorem natChars_zero : natChars 0 = [] := rfl

theorem natChars_all_digits (n : Nat) : ∀ c ∈ natChars n, isDigitChar c = true := by
  induction n using Nat.strong_induction_on with
  | _ n ih =>
    by_cases h0 : n = 0
    · subst h0
      simp [natChars_zero]
    · rw [natChars_succ n h0]
      intro c hc
      rcases List.mem_append.mp hc with hc | hc
      · exact ih (n / 10) (Nat.div_lt_self (by omega) (by omega)) c hc
      · have : c = digitChar (n % 10) := by simpa using hc
        subst this
        exact isDigitChar_digitChar (Nat.mod_lt _ (by omega))

theorem valOf_append_singleton (cs : List Char) (c : Char) :
    valOf (cs ++ [c]) = 10 * valOf cs + charVal c := by
  simp [valOf, List.foldl_append]

theorem valOf_natChars (n : Nat) : valOf (natChars n) = n := by
  induction n using Nat.strong_induction_on with
  | _ n ih =>
    by_cases h0 : n = 0
    · subst h0
      rfl
    · rw [natChars_succ n h0, valOf_append_singleton,
        ih (n / 10) (Nat.div_lt_self (by omega) (by omega)),
        charVal_digitChar (Nat.mod_lt _ (by omega))]
      omega

theorem valOf_replicate_zero_append (k : Nat) (cs : List Char) :
    valOf (List.replicate k '0' ++ cs) = valOf cs := by
  induction k with
  | zero => simp
  | succ k ih =>
    have : List.replicate (k + 1) '0' ++ cs = '0' :: (List.replicate k '0' ++ cs) := by
      simp [List.replicate_succ]
    rw [this]
    show valOf (List.replicate k '0' ++ cs) = valOf cs
    exact ih

theorem valOf_padDigits (w n : Nat) : valOf (padDigits w n) = n := by
  rw [padDigits, valOf_replicate_zero_append, valOf_natChars]

theorem natChars_length_le {n w : Nat} (h : n < 10 ^ w) : (natChars n).length ≤ w := by
  induction w generalizing n with
  | zero =>
    interval_cases n
    simp [natChars_zero]
  | succ w ih =>
    by_cases h0 : n = 0
    · subst h0
      simp [natChars_zero]
    · rw [natChars_succ n h0]
      have hdiv : n / 10 < 10 ^ w := by
        rw [Nat.div_lt_iff_lt_mul (by omega)]
        calc n < 10 ^ (w + 1) := h
        _ = 10 ^ w * 10 := by ring
      have := ih hdiv
      simp only [List.length_append, List.length_singleton]
      omega

theorem padDigits_length {w n : Nat} (h : n < 10 ^ w) : (padDigits w n).length = w := by
  have := natChars_length_le h
  simp only [padDigits, List.length_append, List.length_replicate]
  omega

theorem padDigits_all_digits (w n : Nat) : ∀ c ∈ padDigits w n, isDigitChar c = true := by
  intro c hc
  rcases List.mem_append.mp hc with hc | hc
  · have : c = '0' := List.eq_of_mem_replicate hc
    subst this
    rfl
  · exact natChars_all_digits n c hc

theorem charVal_lt {c : Char} (h : isDigitChar c = true) : charVal c < 10 := by
  have hmem : c ∈ digitCharList := by simpa [isDigitChar] using h
  fin_cases hmem <;> decide

theorem valOf_lt (cs : List Char) (hd : ∀ c ∈ cs, isDigitChar c = true) :
    valOf cs < 10 ^ cs.length := by
  suffices h : ∀ a, cs.foldl (fun a c => 10 * a + charVal c) a < (a + 1) * 10 ^ cs.length by
    have := h 0
    simpa [valOf] using this
  induction cs with
  | nil =>
    intro a
    simp
  | cons c cs ih =>
    intro a
    have hc : charVal c < 10 := charVal_lt (hd c (by simp))
    have := ih (fun x hx => hd x (by simp [hx])) (10 * a + charVal c)
    calc List.foldl (fun a c => 10 * a + charVal c) (10 * a + charVal c) cs
        < (10 * a + charVal c + 1) * 10 ^ cs.length := this
      _ ≤ (a + 1) * 10 ^ (c :: cs).length := by
          simp only [List.length_cons, pow_succ]
          nlinarith [pow_pos (by norm_num : (0:ℕ) < 10) cs.length]

/-- A digit string with a nonzero leading digit is recovered verbatim by
rendering its value. -/
theorem natChars_valOf (cs : List Char) (hd : ∀ c ∈ cs, isDigitChar c = true)
    (hlead : ∀ c, cs.head? = some c → c ≠ '0') : natChars (valOf cs) = cs := by
  induction cs using List.reverseRecOn with
  | nil => rfl
  | append_singleton cs c ih =>
    rcases cs with _ | ⟨c0, cs'⟩
    · have hc : isDigitChar c = true := hd c (by simp)
      have hc0 : c ≠ '0' := hlead c rfl
      have hval : charVal c < 10 ∧ charVal c ≠ 0 := by
        have hmem : c ∈ digitCharList := by simpa [isDigitChar] using hc
        fin_cases hmem <;> first
          | (exact absurd rfl hc0)
          | (constructor <;> decide)
      have : valOf [c] = charVal c := by simp [valOf]
      simp only [List.nil_append]
      rw [this, natChars_succ _ hval.2]
      have h10 : charVal c / 10 = 0 := Nat.div_eq_of_lt hval.1
      have hmod : charVal c % 10 = charVal c := Nat.mod_eq_of_lt hval.1
      rw [h10, hmod, natChars_zero, digitChar_charVal hc]
      rfl
    · set l := c0 :: cs' with hl
      have hval : valOf (l ++ [c]) = 10 * valOf l + charVal c := valOf_append_singleton l c
      have hlpos : valOf l ≠ 0 := by
        intro h0
        have hc0 : isDigitChar c0 = true := hd c0 (by simp [hl])
        have hc0' : c0 ≠ '0' := hlead c0 (by simp [hl])
        have hv : charVal c0 ≠ 0 := by
          have hmem : c0 ∈ digitCharList := by simpa [isDigitChar] using hc0
          fin_cases hmem <;> first
            | (exact absurd rfl hc0')
            | decide
        have : valOf l = l.foldl (fun a c => 10 * a + charVal c) 0 := rfl
        have hmono : ∀ (xs : List Char) (a : Nat), a ≠ 0 →
            xs.foldl (fun a c => 10 * a + charVal c) a ≠ 0 := by
          intro xs
          induction xs with
          | nil => intro a ha; simpa using ha
          | cons x xs ihx =>
            intro a ha
            have : 10 * a + charVal x ≠ 0 := by omega
            simpa using ihx _ this
        have : valOf l = List.foldl (fun a c => 10 * a + charVal c) (charVal c0) cs' := by
          simp [valOf, hl]
        rcases Nat.eq_zero_or_pos (charVal c0) with h | h
        · exact hv h
        · have := hmono cs' (charVal c0) (by omega)
          rw [‹valOf l = List.foldl (fun a c => 10 * a + charVal c) (charVal c0) cs'›] at h0
          exact this h0
      have hcd : charVal c < 10 := charVal_lt (hd c (by simp))
      have hne : 10 * valOf l + charVal c ≠ 0 := by omega
      rw [hval, natChars_succ _ hne]
      have hdiv : (10 * valOf l + charVal c) / 10 = valOf l := by omega
      have hmod : (10 * valOf l + charVal c) % 10 = charVal c := by omega
      rw [hdiv, hmod, ih (fun x hx => hd x (by simp [hx]))
        (fun x hx => hlead x (by simp [hl] at hx ⊢; exact hx)),
        digitChar_charVal (hd c (by simp))]

/-- Reading back a fixed-width digit string and re-padding it is the identity. -/
theorem padDigits_valOf (cs : List Char) (hd : ∀ c ∈ cs, isDigitChar c = true) :
    padDigits cs.length (valOf cs) = cs := by
  induction cs with
  | nil => rfl
  | cons c cs ih =>
    by_cases hc0 : c = '0'
    · subst hc0
      have hval : valOf ('0' :: cs) = valOf cs := by
        simp [valOf]
        rfl
      have hlen : (natChars (valOf cs)).length ≤ cs.length :=
        natChars_length_le (valOf_lt cs (fun x hx => hd x (by simp [hx])))
      have ihcs := ih (fun x hx => hd x (by simp [hx]))
      simp only [padDigits, hval, List.length_cons] at *
      have : cs.length + 1 - (natChars (valOf cs)).length
          = (cs.length - (natChars (valOf cs)).length) + 1 := by omega
      rw [this, List.replicate_succ]
      simp [ihcs]
    · have hrec : natChars (valOf (c :: cs)) = c :: cs :=
        natChars_valOf (c :: cs) hd (by
          intro x hx
          simp only [List.head?_cons, Option.some.injEq] at hx
          subst hx
          exact hc0)
      simp [padDigits, hrec]

/-! ### Timestamp (`src/backup/snapshot/timestamp.rs`)

`Timestamp` wraps `time::PrimitiveDateTime`; we keep its calendar fields.
`year` is signed, as in the `time` crate (`i32`). -/

structure Timestamp where
  year : Int
  month : Nat
  day : Nat
  hour : Nat
  minute : Nat
deriving DecidableEq, Repr

/-- Proleptic Gregorian leap year, as in `time::util::is_leap_year`. -/
def isLeapYear (y : Int) : Bool := (y % 4 == 0 && y % 100 != 0) || y % 400 == 0

/-- Number of days of month `m` of year `y` (`0` for an invalid month). -/
def daysInMonth (y : Int) (m : Nat) : Nat :=
  match m with
  | 1 => 31
  | 2 => if isLeapYear y then 29 else 28
  | 3 => 31
  | 4 => 30
  | 5 => 31
  | 6 => 30
  | 7 => 31
  | 8 => 31
  | 9 => 30
  | 10 => 31
  | 11 => 30
  | 12 => 31
  | _ => 0

/-- The field ranges maintained by `time::PrimitiveDateTime`. -/
def Timestamp.Valid (t : Timestamp) : Prop :=
  1 ≤ t.month ∧ t.month ≤ 12 ∧ 1 ≤ t.day ∧ t.day ≤ daysInMonth t.year t.month ∧
    t.hour ≤ 23 ∧ t.minute ≤ 59

instance (t : Timestamp) : Decidable t.Valid := by
  unfold Timestamp.Valid
  infer_instance

/-- The strict order on timestamps: the Rust type derives `Ord`, which on the
wrapped `PrimitiveDateTime` is lexicographic on (date, time), i.e. on the
calendar fields for valid timestamps. -/
def Timestamp.Lt (a b : Timestamp) : Prop :=
  a.year < b.year ∨ (a.year = b.year ∧
    (a.month < b.month ∨ (a.month = b.month ∧
      (a.day < b.day ∨ (a.day = b.day ∧
        (a.hour < b.hour ∨ (a.hour = b.hour ∧ a.minute < b.minute)))))))

instance (a b : Timestamp) : Decidable (Timestamp.Lt a b) := by
  unfold Timestamp.Lt
  infer_instance

/-- Boolean form of `Timestamp.Lt`, mirroring the Rust `<` comparison. -/
def Timestamp.ltb (a b : Timestamp) : Bool := decide (Timestamp.Lt a b)

/-- `Timestamp::get_next`: adds exactly one minute (the `time` crate's
calendar-aware `+ Duration::minutes(1)`). -/
def Timestamp.get_next (t : Timestamp) : Timestamp :=
  if t.minute < 59 then { t with minute := t.minute + 1 }
  else if t.hour < 23 then { t with minute := 0, hour := t.hour + 1 }
  else if t.day < daysInMonth t.year t.month then
    { t with minute := 0, hour := 0, day := t.day + 1 }
  else if t.month < 12 then
    { t with minute := 0, hour := 0, day := 1, month := t.month + 1 }
  else { year := t.year + 1, month := 1, day := 1, hour := 0, minute := 0 }

/-- `Timestamp - Duration::minutes(1)` (the only subtraction the code uses:
the one-minute margin in `is_entry_already_backed_up`). -/
def Timestamp.sub_minute (t : Timestamp) : Timestamp :=
  if 1 ≤ t.minute then { t with minute := t.minute - 1 }
  else if 1 ≤ t.hour then { t with minute := 59, hour := t.hour - 1 }
  else if 2 ≤ t.day then { t with minute := 59, hour := 23, day := t.day - 1 }
  else if 2 ≤ t.month then
    { t with
      minute := 59
      hour := 23
      day := daysInMonth t.year (t.month - 1)
      month := t.month - 1 }
  else { year := t.year - 1, month := 12, day := 31, hour := 23, minute := 59 }

/-- Rendering of the year field: zero-padded to width 4, with a sign for
negative years, as the `time` formatter emits `[year]`. -/
def intChars4 (y : Int) : List Char :=
  if y < 0 then '-' :: padDigits 4 y.natAbs else padDigits 4 y.toNat

/-- The canonical rendering `YYYY-MM-DD_HH.MM` of a timestamp as a character
list (the format string is `[year]-[month]-[day]_[hour].[minute]`). -/
def Timestamp.render (t : Timestamp) : List Char :=
  intChars4 t.year ++ '-' :: padDigits 2 t.month ++ '-' :: padDigits 2 t.day ++
    '_' :: padDigits 2 t.hour ++ '.' :: padDigits 2 t.minute

/-- `Display for Timestamp`. -/
def Timestamp.toString (t : Timestamp) : String := String.mk t.render

/-! #### Parsing (`Timestamp::parse_from`)

The `time` crate parses the format `[year]-[month]-[day]_[hour].[minute]`
as: an optional sign then exactly four digits for `[year]` (padding `Zero`),
the literal separators, exactly two digits for each remaining field, the
whole input must be consumed, and the parsed fields must form a valid
calendar date and time. -/

/-- Consume an optional leading sign (the `time` year parser accepts one even
when the sign is not mandatory). Returns `some true` for `+`. -/
def parseSign (cs : List Char) : Option Bool × List Char :=
  match cs with
  | [] => (none, [])
  | c :: rest =>
    if c = '+' then (some true, rest)
    else if c = '-' then (some false, rest) else (none, c :: rest)

/-- Consume exactly `n` decimal digits, returning their value. -/
def parseDigits : Nat → List Char → Nat → Option (Nat × List Char)
  | 0, cs, acc => some (acc, cs)
  | _ + 1, [], _ => none
  | n + 1, c :: cs, acc =>
    if isDigitChar c then parseDigits n cs (10 * acc + charVal c) else none

/-- Consume one expected literal character. -/
def expectChar (c : Char) (cs : List Char) : Option (List Char) :=
  match cs with
  | [] => none
  | x :: rest => if x = c then some rest else none

/-- `Timestamp::parse_from`, over a character list. -/
def Timestamp.parseChars (cs : List Char) : Option Timestamp :=
  let sr := parseSign cs
  match parseDigits 4 sr.2 0 with
  | none => none
  | some (yraw, cs) =>
    match expectChar '-' cs with
    | none => none
    | some cs =>
      match parseDigits 2 cs 0 with
      | none => none
      | some (mo, cs) =>
        match expectChar '-' cs with
        | none => none
        | some cs =>
          match parseDigits 2 cs 0 with
          | none => none
          | some (d, cs) =>
            match expectChar '_' cs with
            | none => none
            | some cs =>
              match parseDigits 2 cs 0 with
              | none => none
              | some (hr, cs) =>
                match expectChar '.' cs with
                | none => none
                | some cs =>
                  match parseDigits 2 cs 0 with
                  | none => none
                  | some (mi, cs) =>
                    match cs with
                    | _ :: _ => none
                    | [] =>
                      let y : Int :=
                        match sr.1 with
                        | some b => if b then (yraw : Int) else -(yraw : Int)
                        | none => (yraw : Int)
                      let t : Timestamp :=
                        { year := y, month := mo, day := d, hour := hr, minute := mi }
                      if t.Valid then some t else none

/-- `Timestamp::parse_from`. -/
def Timestamp.parse_from (s : String) : Option Timestamp :=
  Timestamp.parseChars s.toList

/-- `Timestamp::is_valid`: boolean form of parsing. -/
def Timestamp.is_valid (s : String) : Bool := (Timestamp.parse_from s).isSome

/-! #### Order and successor lemmas -/

theorem Timestamp.Lt.trans {a b c : Timestamp} (h1 : a.Lt b) (h2 : b.Lt c) : a.Lt c := by
  unfold Timestamp.Lt at *
  omega

theorem Timestamp.Lt.ne {a b : Timestamp} (h : a.Lt b) : a ≠ b := by
  intro he
  subst he
  unfold Timestamp.Lt at h
  omega

theorem one_le_daysInMonth {y : Int} {m : Nat} (h1 : 1 ≤ m) (h2 : m ≤ 12) :
    1 ≤ daysInMonth y m := by
  interval_cases m <;> simp [daysInMonth] <;> split <;> omega

theorem Timestamp.valid_get_next {t : Timestamp} (h : t.Valid) : t.get_next.Valid := by
  obtain ⟨h1, h2, h3, h4, h5, h6⟩ := h
  unfold Timestamp.get_next
  split_ifs with c1 c2 c3 c4
  · exact ⟨h1, h2, h3, h4, h5, show t.minute + 1 ≤ 59 by omega⟩
  · exact ⟨h1, h2, h3, h4, show t.hour + 1 ≤ 23 by omega, show (0:Nat) ≤ 59 by omega⟩
  · exact ⟨h1, h2, show 1 ≤ t.day + 1 by omega,
      show t.day + 1 ≤ daysInMonth t.year t.month by omega,
      show (0:Nat) ≤ 23 by omega, show (0:Nat) ≤ 59 by omega⟩
  · exact ⟨show 1 ≤ t.month + 1 by omega, show t.month + 1 ≤ 12 by omega,
      show (1:Nat) ≤ 1 from le_rfl,
      show (1:Nat) ≤ daysInMonth t.year (t.month + 1) from
        one_le_daysInMonth (by omega) (by omega),
      show (0:Nat) ≤ 23 by omega, show (0:Nat) ≤ 59 by omega⟩
  · exact ⟨show (1:Nat) ≤ 1 from le_rfl, show (1:Nat) ≤ 12 by omega,
      show (1:Nat) ≤ 1 from le_rfl,
      show (1:Nat) ≤ daysInMonth (t.year + 1) 1 by simp [daysInMonth],
      show (0:Nat) ≤ 23 by omega, show (0:Nat) ≤ 59 by omega⟩

theorem Timestamp.lt_get_next (t : Timestamp) : t.Lt t.get_next := by
  unfold Timestamp.get_next
  split_ifs with c1 c2 c3 c4 <;> unfold Timestamp.Lt <;> simp <;> omega

theorem Timestamp.valid_iterate_get_next {t : Timestamp} (h : t.Valid) (k : Nat) :
    (Timestamp.get_next^[k] t).Valid := by
  induction k generalizing t with
  | zero => exact h
  | succ k ih =>
    rw [Function.iterate_succ_apply]
    exact ih (Timestamp.valid_get_next h)

theorem Timestamp.lt_iterate_get_next (t : Timestamp) {k : Nat} (hk : 0 < k) :
    t.Lt (Timestamp.get_next^[k] t) := by
  induction k generalizing t with
  | zero => omega
  | succ k ih =>
    rw [Function.iterate_succ_apply]
    rcases Nat.eq_zero_or_pos k with h | h
    · subst h
      exact t.lt_get_next
    · exact (t.lt_get_next).trans (ih _ h)

theorem Timestamp.iterate_get_next_strict_mono {t : Timestamp} {i j : Nat} (h : i < j) :
    (Timestamp.get_next^[i] t).Lt (Timestamp.get_next^[j] t) := by
  have : Timestamp.get_next^[j] t
      = Timestamp.get_next^[j - i] (Timestamp.get_next^[i] t) := by
    rw [← Function.iterate_add_apply]
    congr 1
    omega
  rw [this]
  exact Timestamp.lt_iterate_get_next _ (by omega)

/-! #### Injectivity of the rendering -/

theorem padDigits_ne_nil {w n : Nat} (hw : 0 < w) : padDigits w n ≠ [] := by
  intro h
  have := congrArg List.length h
  simp only [padDigits, List.length_append, List.length_replicate, List.length_nil] at this
  omega

theorem padDigits_head_digit {w n : Nat} {c : Char} {rest : List Char}
    (h : padDigits w n = c :: rest) : isDigitChar c = true := by
  have : c ∈ padDigits w n := by
    rw [h]
    simp
  exact padDigits_all_digits w n c this

theorem intChars4_inj {y1 y2 : Int} (h : intChars4 y1 = intChars4 y2) : y1 = y2 := by
  unfold intChars4 at h
  split_ifs at h with h1 h2 h2
  · have := congrArg valOf (List.tail_eq_of_cons_eq h)
    rw [valOf_padDigits, valOf_padDigits] at this
    omega
  · rcases hc : padDigits 4 y2.toNat with _ | ⟨c, rest⟩
    · exact absurd hc (padDigits_ne_nil (by omega))
    · rw [hc] at h
      have hd := padDigits_head_digit hc
      have : '-' = c := (List.cons_eq_cons.mp h).1
      subst this
      simp [isDigitChar, digitCharList] at hd
  · rcases hc : padDigits 4 y1.toNat with _ | ⟨c, rest⟩
    · exact absurd hc (padDigits_ne_nil (by omega))
    · rw [hc] at h
      have hd := padDigits_head_digit hc
      have : c = '-' := (List.cons_eq_cons.mp h).1
      subst this
      simp [isDigitChar, digitCharList] at hd
  · have := congrArg valOf h
    rw [valOf_padDigits, valOf_padDigits] at this
    omega

theorem padDigits_two_length {n : Nat} (h : n ≤ 99) : (padDigits 2 n).length = 2 :=
  padDigits_length (by
    have : (10:ℕ) ^ 2 = 100 := by norm_num
    omega)

theorem Timestamp.render_inj {a b : Timestamp} (ha : a.Valid) (hb : b.Valid)
    (h : a.render = b.render) : a = b := by
  obtain ⟨ha1, ha2, ha3, ha4, ha5, ha6⟩ := ha
  obtain ⟨hb1, hb2, hb3, hb4, hb5, hb6⟩ := hb
  have hdma : daysInMonth a.year a.month ≤ 31 := by
    rcases a with ⟨y, m, d, hh, mi⟩
    simp only at *
    interval_cases m <;> simp [daysInMonth] <;> split <;> omega
  have hdmb : daysInMonth b.year b.month ≤ 31 := by
    rcases b with ⟨y, m, d, hh, mi⟩
    simp only at *
    interval_cases m <;> simp [daysInMonth] <;> split <;> omega
  have lma : (padDigits 2 a.month).length = 2 := padDigits_two_length (by omega)
  have lmb : (padDigits 2 b.month).length = 2 := padDigits_two_length (by omega)
  have lda : (padDigits 2 a.day).length = 2 := padDigits_two_length (by omega)
  have ldb : (padDigits 2 b.day).length = 2 := padDigits_two_length (by omega)
  have lha : (padDigits 2 a.hour).length = 2 := padDigits_two_length (by omega)
  have lhb : (padDigits 2 b.hour).length = 2 := padDigits_two_length (by omega)
  have lia : (padDigits 2 a.minute).length = 2 := padDigits_two_length (by omega)
  have lib : (padDigits 2 b.minute).length = 2 := padDigits_two_length (by omega)
  unfold Timestamp.render at h
  obtain ⟨g1, e1⟩ := List.append_inj' h (by
    simp only [List.length_cons, lia, lib])
  have hminute : a.minute = b.minute := by
    have := congrArg valOf (List.tail_eq_of_cons_eq e1)
    rwa [valOf_padDigits, valOf_padDigits] at this
  obtain ⟨g2, e2⟩ := List.append_inj' g1 (by
    simp only [List.length_cons, lha, lhb])
  have hhour : a.hour = b.hour := by
    have := congrArg valOf (List.tail_eq_of_cons_eq e2)
    rwa [valOf_padDigits, valOf_padDigits] at this
  obtain ⟨g3, e3⟩ := List.append_inj' g2 (by
    simp only [List.length_cons, lda, ldb])
  have hday : a.day = b.day := by
    have := congrArg valOf (List.tail_eq_of_cons_eq e3)
    rwa [valOf_padDigits, valOf_padDigits] at this
  obtain ⟨g4, e4⟩ := List.append_inj' g3 (by
    simp only [List.length_cons, lma, lmb])
  have hmonth : a.month = b.month := by
    have := congrArg valOf (List.tail_eq_of_cons_eq e4)
    rwa [valOf_padDigits, valOf_padDigits] at this
  have hyear : a.year = b.year := intChars4_inj g4
  rcases a with ⟨ya, ma, da, ha', ia⟩
  rcases b with ⟨yb, mb, db, hb', ib⟩
  simp only at hyear hmonth hday hhour hminute
  simp [hyear, hmonth, hday, hhour, hminute]

/-! #### The canonical pattern, and evaluation lemmas for the parser -/

/-- Modelled from the spec's words: a string exactly matching the canonical
timestamp pattern `YYYY-MM-DD_HH.MM` — fixed-width zero-padded decimal
fields, the separators `-`, `-`, `_`, `.` in place, and field values in
valid calendar and time ranges.  This is the spec-side description the
parser is compared against. -/
def matchesCanonicalPattern (cs : List Char) : Bool :=
  match cs with
  | [y1, y2, y3, y4, s1, m1, m2, s2, d1, d2, s3, h1, h2, s4, n1, n2] =>
    isDigitChar y1 && isDigitChar y2 && isDigitChar y3 && isDigitChar y4 &&
    isDigitChar m1 && isDigitChar m2 && isDigitChar d1 && isDigitChar d2 &&
    isDigitChar h1 && isDigitChar h2 && isDigitChar n1 && isDigitChar n2 &&
    (s1 == '-') && (s2 == '-') && (s3 == '_') && (s4 == '.') &&
    decide (1 ≤ 10 * charVal m1 + charVal m2 ∧ 10 * charVal m1 + charVal m2 ≤ 12 ∧
      1 ≤ 10 * charVal d1 + charVal d2 ∧
      10 * charVal d1 + charVal d2 ≤
        daysInMonth (valOf [y1, y2, y3, y4]) (10 * charVal m1 + charVal m2) ∧
      10 * charVal h1 + charVal h2 ≤ 23 ∧ 10 * charVal n1 + charVal n2 ≤ 59)
  | _ => false

theorem isDigitChar_ne_plus {c : Char} (h : isDigitChar c = true) : c ≠ '+' := by
  have hmem : c ∈ digitCharList := by simpa [isDigitChar] using h
  fin_cases hmem <;> decide

theorem isDigitChar_ne_minus {c : Char} (h : isDigitChar c = true) : c ≠ '-' := by
  have hmem : c ∈ digitCharList := by simpa [isDigitChar] using h
  fin_cases hmem <;> decide

theorem parseSign_digit {c : Char} (h : isDigitChar c = true) (cs : List Char) :
    parseSign (c :: cs) = (none, c :: cs) := by
  simp [parseSign, isDigitChar_ne_plus h, isDigitChar_ne_minus h]

theorem parseDigits_two {a b : Char} (ha : isDigitChar a = true) (hb : isDigitChar b = true)
    (cs : List Char) (acc : Nat) :
    parseDigits 2 (a :: b :: cs) acc
      = some (10 * (10 * acc + charVal a) + charVal b, cs) := by
  simp [parseDigits, ha, hb]

theorem parseDigits_four {a b c d : Char} (ha : isDigitChar a = true)
    (hb : isDigitChar b = true) (hc : isDigitChar c = true) (hd : isDigitChar d = true)
    (cs : List Char) :
    parseDigits 4 (a :: b :: c :: d :: cs) 0
      = some (valOf [a, b, c, d], cs) := by
  simp [parseDigits, ha, hb, hc, hd, valOf]

theorem expectChar_same (c : Char) (cs : List Char) : expectChar c (c :: cs) = some cs := by
  simp [expectChar]

theorem expectChar_other {x c : Char} (h : x ≠ c) (cs : List Char) :
    expectChar c (x :: cs) = none := by
  simp [expectChar, h]

theorem valOf_two (a b : Char) : valOf [a, b] = 10 * charVal a + charVal b := by
  simp [valOf]

/-- Fully evaluate the parser on a well-separated 16-character candidate:
it reduces to the final range check. -/
theorem parseChars_shape (y1 y2 y3 y4 m1 m2 d1 d2 h1 h2 n1 n2 : Char)
    (hdig : ∀ x ∈ [y1, y2, y3, y4, m1, m2, d1, d2, h1, h2, n1, n2], isDigitChar x = true)
    (rest : List Char) :
    Timestamp.parseChars
        ([y1, y2, y3, y4, '-', m1, m2, '-', d1, d2, '_', h1, h2, '.', n1, n2] ++ rest)
      = (match rest with
        | _ :: _ => none
        | [] =>
          let t : Timestamp :=
            { year := (valOf [y1, y2, y3, y4] : Int), month := valOf [m1, m2],
              day := valOf [d1, d2], hour := valOf [h1, h2], minute := valOf [n1, n2] }
          if t.Valid then some t else none) := by
  have hy1 := hdig y1 (by simp)
  have hy2 := hdig y2 (by simp)
  have hy3 := hdig y3 (by simp)
  have hy4 := hdig y4 (by simp)
  have hm1 := hdig m1 (by simp)
  have hm2 := hdig m2 (by simp)
  have hd1 := hdig d1 (by simp)
  have hd2 := hdig d2 (by simp)
  have hh1 := hdig h1 (by simp)
  have hh2 := hdig h2 (by simp)
  have hn1 := hdig n1 (by simp)
  have hn2 := hdig n2 (by simp)
  cases rest with
  | nil =>
    simp [Timestamp.parseChars, parseSign, isDigitChar_ne_plus hy1, isDigitChar_ne_minus hy1,
      parseDigits, hy1, hy2, hy3, hy4, hm1, hm2, hd1, hd2, hh1, hh2, hn1, hn2,
      expectChar, valOf]
  | cons r rs =>
    simp [Timestamp.parseChars, parseSign, isDigitChar_ne_plus hy1, isDigitChar_ne_minus hy1,
      parseDigits, hy1, hy2, hy3, hy4, hm1, hm2, hd1, hd2, hh1, hh2, hn1, hn2,
      expectChar, valOf]

theorem padDigits_four_of_matches {y1 y2 y3 y4 : Char} (h1 : isDigitChar y1 = true)
    (h2 : isDigitChar y2 = true) (h3 : isDigitChar y3 = true) (h4 : isDigitChar y4 = true) :
    padDigits 4 (valOf [y1, y2, y3, y4]) = [y1, y2, y3, y4] := by
  have := padDigits_valOf [y1, y2, y3, y4] (by
    intro x hx
    simp only [List.mem_cons, List.not_mem_nil, or_false] at hx
    rcases hx with h | h | h | h <;> subst h <;> assumption)
  simpa using this

theorem padDigits_two_of_digits {a b : Char} (ha : isDigitChar a = true)
    (hb : isDigitChar b = true) : padDigits 2 (valOf [a, b]) = [a, b] := by
  have := padDigits_valOf [a, b] (by
    intro x hx
    simp only [List.mem_cons, List.not_mem_nil, or_false] at hx
    rcases hx with h | h <;> subst h <;> assumption)
  simpa using this

/-- Inversion for `matchesCanonicalPattern`: a matching string has exactly
the 16-character shape with digits, separators and valid ranges. -/
theorem matchesCanonicalPattern_inv {cs : List Char}
    (hm : matchesCanonicalPattern cs = true) :
    ∃ y1 y2 y3 y4 m1 m2 d1 d2 h1 h2 n1 n2 : Char,
      cs = [y1, y2, y3, y4, '-', m1, m2, '-', d1, d2, '_', h1, h2, '.', n1, n2] ∧
      (∀ x ∈ [y1, y2, y3, y4, m1, m2, d1, d2, h1, h2, n1, n2], isDigitChar x = true) ∧
      (Timestamp.mk (valOf [y1, y2, y3, y4] : Int) (valOf [m1, m2]) (valOf [d1, d2])
        (valOf [h1, h2]) (valOf [n1, n2])).Valid := by
  rcases cs with _ | ⟨y1, _ | ⟨y2, _ | ⟨y3, _ | ⟨y4, _ | ⟨s1, _ | ⟨m1, _ | ⟨m2, _ |
    ⟨s2, _ | ⟨d1, _ | ⟨d2, _ | ⟨s3, _ | ⟨h1, _ | ⟨h2, _ | ⟨s4, _ | ⟨n1, _ |
    ⟨n2, rest⟩⟩⟩⟩⟩⟩⟩⟩⟩⟩⟩⟩⟩⟩⟩⟩ <;>
    try (simp only [matchesCanonicalPattern] at hm; exact (Bool.false_ne_true hm).elim)
  rcases rest with _ | ⟨r, rs⟩
  swap
  · simp only [matchesCanonicalPattern] at hm
    exact (Bool.false_ne_true hm).elim
  simp only [matchesCanonicalPattern, Bool.and_eq_true, beq_iff_eq, decide_eq_true_eq]
    at hm
  obtain ⟨⟨⟨⟨⟨⟨⟨⟨⟨⟨⟨⟨⟨⟨⟨⟨hy1, hy2⟩, hy3⟩, hy4⟩, hm1⟩, hm2⟩, hd1⟩, hd2⟩, hh1⟩, hh2⟩,
    hn1⟩, hn2⟩, hs1⟩, hs2⟩, hs3⟩, hs4⟩, hrange⟩ := hm
  subst hs1
  subst hs2
  subst hs3
  subst hs4
  refine ⟨y1, y2, y3, y4, m1, m2, d1, d2, h1, h2, n1, n2, rfl, ?_, ?_⟩
  · intro x hx
    simp only [List.mem_cons, List.not_mem_nil, or_false] at hx
    rcases hx with h | h | h | h | h | h | h | h | h | h | h | h <;> subst h <;> assumption
  · refine ⟨?_, ?_, ?_, ?_, ?_, ?_⟩ <;> simp only [valOf_two] <;>
      first
        | omega
        | (exact hrange.2.2.2.1)

/-- C9.  For every string exactly matching the canonical pattern
`YYYY-MM-DD_HH.MM` (fixed-width zero-padded fields, valid calendar and time
ranges), `Timestamp::parse_from` succeeds and formatting the result gives
back exactly the input; and the deviations named by the claim — extra
whitespace (leading or trailing), a wrong separator character in any of the
four separator positions, or out-of-range field values — all make
`parse_from` fail. -/
theorem C9_parse_format_round_trip :
    (∀ cs : List Char, matchesCanonicalPattern cs = true →
      ∃ t : Timestamp, Timestamp.parse_from (String.mk cs) = some t ∧
        t.toString = String.mk cs) ∧
    (∀ (cs : List Char) (c : Char), matchesCanonicalPattern cs = true →
      c.isWhitespace = true →
      Timestamp.parse_from (String.mk (c :: cs)) = none ∧
      Timestamp.parse_from (String.mk (cs ++ [c])) = none) ∧
    (∀ y1 y2 y3 y4 m1 m2 d1 d2 h1 h2 n1 n2 c : Char,
      (∀ x ∈ [y1, y2, y3, y4, m1, m2, d1, d2, h1, h2, n1, n2], isDigitChar x = true) →
      (c ≠ '-' → Timestamp.parse_from
        (String.mk [y1, y2, y3, y4, c, m1, m2, '-', d1, d2, '_', h1, h2, '.', n1, n2])
        = none) ∧
      (c ≠ '-' → Timestamp.parse_from
        (String.mk [y1, y2, y3, y4, '-', m1, m2, c, d1, d2, '_', h1, h2, '.', n1, n2])
        = none) ∧
      (c ≠ '_' → Timestamp.parse_from
        (String.mk [y1, y2, y3, y4, '-', m1, m2, '-', d1, d2, c, h1, h2, '.', n1, n2])
        = none) ∧
      (c ≠ '.' → Timestamp.parse_from
        (String.mk [y1, y2, y3, y4, '-', m1, m2, '-', d1, d2, '_', h1, h2, c, n1, n2])
        = none)) ∧
    (∀ y1 y2 y3 y4 m1 m2 d1 d2 h1 h2 n1 n2 : Char,
      (∀ x ∈ [y1, y2, y3, y4, m1, m2, d1, d2, h1, h2, n1, n2], isDigitChar x = true) →
      ¬ (Timestamp.mk (valOf [y1, y2, y3, y4] : Int) (valOf [m1, m2]) (valOf [d1, d2])
          (valOf [h1, h2]) (valOf [n1, n2])).Valid →
      Timestamp.parse_from
        (String.mk [y1, y2, y3, y4, '-', m1, m2, '-', d1, d2, '_', h1, h2, '.', n1, n2])
        = none) := by
  have hws_facts : ∀ c : Char, c.isWhitespace = true →
      isDigitChar c = false ∧ c ≠ '+' ∧ c ≠ '-' := by
    intro c h
    simp only [Char.isWhitespace, Bool.or_eq_true, decide_eq_true_eq] at h
    rcases h with ((h | h) | h) | h <;> subst h <;> exact ⟨by decide, by decide, by decide⟩
  refine ⟨?_, ?_, ?_, ?_⟩
  · intro cs hm
    obtain ⟨y1, y2, y3, y4, m1, m2, d1, d2, h1, h2, n1, n2, hcs, hdig, hvalid⟩ :=
      matchesCanonicalPattern_inv hm
    subst hcs
    have hshape := parseChars_shape y1 y2 y3 y4 m1 m2 d1 d2 h1 h2 n1 n2 hdig []
    rw [List.append_nil] at hshape
    refine ⟨Timestamp.mk (valOf [y1, y2, y3, y4] : Int) (valOf [m1, m2]) (valOf [d1, d2])
      (valOf [h1, h2]) (valOf [n1, n2]), ?_, ?_⟩
    · show Timestamp.parseChars
          [y1, y2, y3, y4, '-', m1, m2, '-', d1, d2, '_', h1, h2, '.', n1, n2] = _
      rw [hshape]
      simp only [if_pos hvalid]
    · show String.mk (Timestamp.render _) = _
      have hy : intChars4 (valOf [y1, y2, y3, y4] : Int)
          = [y1, y2, y3, y4] := by
        rw [intChars4, if_neg (by omega)]
        rw [Int.toNat_natCast]
        exact padDigits_four_of_matches (hdig y1 (by simp)) (hdig y2 (by simp))
          (hdig y3 (by simp)) (hdig y4 (by simp))
      rw [Timestamp.render]
      simp only
      rw [hy, padDigits_two_of_digits (hdig m1 (by simp)) (hdig m2 (by simp)),
        padDigits_two_of_digits (hdig d1 (by simp)) (hdig d2 (by simp)),
        padDigits_two_of_digits (hdig h1 (by simp)) (hdig h2 (by simp)),
        padDigits_two_of_digits (hdig n1 (by simp)) (hdig n2 (by simp))]
      simp
  · intro cs c hm hws
    obtain ⟨hwd, hwp, hwm⟩ := hws_facts c hws
    obtain ⟨y1, y2, y3, y4, m1, m2, d1, d2, h1, h2, n1, n2, hcs, hdig, hvalid⟩ :=
      matchesCanonicalPattern_inv hm
    subst hcs
    constructor
    · show Timestamp.parseChars (c :: _) = none
      simp [Timestamp.parseChars, parseSign, parseDigits, hwd, hwp, hwm]
    · show Timestamp.parseChars
        ([y1, y2, y3, y4, '-', m1, m2, '-', d1, d2, '_', h1, h2, '.', n1, n2] ++ [c])
        = none
      rw [parseChars_shape y1 y2 y3 y4 m1 m2 d1 d2 h1 h2 n1 n2 hdig [c]]
  · intro y1 y2 y3 y4 m1 m2 d1 d2 h1 h2 n1 n2 c hdig
    have hy1 := hdig y1 (by simp)
    have hy2 := hdig y2 (by simp)
    have hy3 := hdig y3 (by simp)
    have hy4 := hdig y4 (by simp)
    have hm1 := hdig m1 (by simp)
    have hm2 := hdig m2 (by simp)
    have hd1 := hdig d1 (by simp)
    have hd2 := hdig d2 (by simp)
    have hh1 := hdig h1 (by simp)
    have hh2 := hdig h2 (by simp)
    have hn1 := hdig n1 (by simp)
    have hn2 := hdig n2 (by simp)
    refine ⟨?_, ?_, ?_, ?_⟩ <;> intro hc <;>
      show Timestamp.parseChars _ = none <;>
      simp [Timestamp.parseChars, parseSign, isDigitChar_ne_plus hy1,
        isDigitChar_ne_minus hy1, parseDigits, hy1, hy2, hy3, hy4, hm1, hm2, hd1, hd2,
        hh1, hh2, hn1, hn2, expectChar, hc]
  · intro y1 y2 y3 y4 m1 m2 d1 d2 h1 h2 n1 n2 hdig hrange
    have hshape := parseChars_shape y1 y2 y3 y4 m1 m2 d1 d2 h1 h2 n1 n2 hdig []
    rw [List.append_nil] at hshape
    show Timestamp.parseChars
        [y1, y2, y3, y4, '-', m1, m2, '-', d1, d2, '_', h1, h2, '.', n1, n2] = none
    rw [hshape]
    simp only [if_neg hrange]

/-! ### Choosing the timestamp of a new snapshot
(`get_timestamp_for_new_snapshot`, `src/backup/snapshot.rs`)

The filesystem inputs are made explicit: `ex` is the list of names of the
entries existing in the backup root (`location.exists()` is membership),
`now` is `Timestamp::now()`, and `latest` the timestamp of the latest
snapshot preview, when any.  The collision loop is modelled with
`ex.length + 1` steps of fuel; `find_free_spec` and
`exists_iterate_not_mem` below show this fuel always suffices, so the
model coincides with the unbounded Rust loop. -/

def find_free (ex : List (List Char)) : Nat → Timestamp → Timestamp
  | 0, t => t
  | fuel + 1, t =>
    if t.render ∈ ex then find_free ex fuel t.get_next else t

def get_timestamp_for_new_snapshot (ex : List (List Char)) (now : Timestamp)
    (latest : Option Timestamp) : Timestamp :=
  let current :=
    match latest with
    | some l => if Timestamp.ltb now l then l.get_next else now
    | none => now
  find_free ex (ex.length + 1) current

/-- Pigeonhole: some iterate of `get_next` renders to a name outside `ex`. -/
theorem exists_iterate_not_mem (ex : List (List Char)) (t : Timestamp) (hv : t.Valid) :
    ∃ k, k ≤ ex.length ∧ (Timestamp.get_next^[k] t).render ∉ ex := by
  by_contra hcon
  push_neg at hcon
  set L : List (List Char) :=
    (List.range (ex.length + 1)).map (fun k => (Timestamp.get_next^[k] t).render) with hL
  have hnd : L.Nodup := by
    refine List.Nodup.map_on ?_ (List.nodup_range _)
    intro i hi j hj heq
    by_contra hne
    rcases Nat.lt_or_ge i j with hij | hij
    · have hlt := Timestamp.iterate_get_next_strict_mono (t := t) hij
      exact hlt.ne (Timestamp.render_inj (Timestamp.valid_iterate_get_next hv i)
        (Timestamp.valid_iterate_get_next hv j) heq)
    · have hij' : j < i := by omega
      have hlt := Timestamp.iterate_get_next_strict_mono (t := t) hij'
      exact hlt.ne (Timestamp.render_inj (Timestamp.valid_iterate_get_next hv j)
        (Timestamp.valid_iterate_get_next hv i) heq.symm)
  have hsub : L.toFinset ⊆ ex.toFinset := by
    intro x hx
    rw [List.mem_toFinset] at hx ⊢
    rw [hL] at hx
    simp only [List.mem_map, List.mem_range] at hx
    obtain ⟨k, hk, rfl⟩ := hx
    exact hcon k (by omega)
  have h1 : L.toFinset.card = L.length := List.toFinset_card_of_nodup hnd
  have h2 : L.length = ex.length + 1 := by simp [hL]
  have h3 : L.toFinset.card ≤ ex.toFinset.card := Finset.card_le_card hsub
  have h4 : ex.toFinset.card ≤ ex.length := ex.toFinset_card_le
  omega

theorem find_free_spec (ex : List (List Char)) :
    ∀ (fuel : Nat) (t : Timestamp),
      (∃ k, k < fuel ∧ (Timestamp.get_next^[k] t).render ∉ ex) →
      ∃ j, find_free ex fuel t = Timestamp.get_next^[j] t ∧
        (find_free ex fuel t).render ∉ ex ∧ (t.render ∈ ex → 1 ≤ j) := by
  intro fuel
  induction fuel with
  | zero =>
    intro t ⟨k, hk, _⟩
    omega
  | succ fuel ih =>
    intro t ⟨k, hk, hkfree⟩
    by_cases hmem : t.render ∈ ex
    · have hk0 : k ≠ 0 := by
        intro h0
        subst h0
        exact hkfree hmem
      have hstep : Timestamp.get_next^[k] t
          = Timestamp.get_next^[k - 1] t.get_next := by
        conv_lhs => rw [show k = (k - 1) + 1 by omega]
        rw [Function.iterate_succ_apply]
      obtain ⟨j, hjeq, hjfree, _⟩ := ih t.get_next ⟨k - 1, by omega, by
        rw [← hstep]; exact hkfree⟩
      refine ⟨j + 1, ?_, ?_, fun _ => by omega⟩
      · rw [show find_free ex (fuel + 1) t = find_free ex fuel t.get_next from by
          simp [find_free, hmem]]
        rw [hjeq, Function.iterate_succ_apply]
      · rw [show find_free ex (fuel + 1) t = find_free ex fuel t.get_next from by
          simp [find_free, hmem]]
        exact hjfree
    · refine ⟨0, ?_, ?_, fun h => absurd h hmem⟩
      · simp [find_free, hmem]
      · simp only [show find_free ex (fuel + 1) t = t from by simp [find_free, hmem]]
        exact hmem

/-- C2.  `Snapshot::create` never reuses an existing directory name, and when
the latest known snapshot's timestamp is at or ahead of the wall clock the
chosen timestamp strictly exceeds it, so timestamps within one backup root
are strictly monotonic. -/
theorem C2_new_snapshot_timestamp (ex : List (List Char)) (now latest : Timestamp)
    (hvN : now.Valid) (hvL : latest.Valid) (hmem : latest.render ∈ ex) :
    (get_timestamp_for_new_snapshot ex now (some latest)).render ∉ ex ∧
    ((Timestamp.Lt now latest ∨ now = latest) →
      latest.Lt (get_timestamp_for_new_snapshot ex now (some latest))) := by
  by_cases hlt : Timestamp.ltb now latest = true
  · have hlt' : Timestamp.Lt now latest := by
      simpa [Timestamp.ltb, decide_eq_true_eq] using hlt
    have hcur : get_timestamp_for_new_snapshot ex now (some latest)
        = find_free ex (ex.length + 1) latest.get_next := by
      simp [get_timestamp_for_new_snapshot, hlt]
    have hvC : latest.get_next.Valid := Timestamp.valid_get_next hvL
    obtain ⟨k, hk, hkfree⟩ := exists_iterate_not_mem ex latest.get_next hvC
    obtain ⟨j, hjeq, hjfree, _⟩ :=
      find_free_spec ex (ex.length + 1) latest.get_next ⟨k, by omega, hkfree⟩
    constructor
    · rw [hcur]
      exact hjfree
    · intro _
      rw [hcur, hjeq]
      rcases Nat.eq_zero_or_pos j with hj | hj
      · subst hj
        exact latest.lt_get_next
      · exact (latest.lt_get_next).trans (Timestamp.lt_iterate_get_next _ hj)
  · have hcur : get_timestamp_for_new_snapshot ex now (some latest)
        = find_free ex (ex.length + 1) now := by
      simp [get_timestamp_for_new_snapshot, hlt]
    obtain ⟨k, hk, hkfree⟩ := exists_iterate_not_mem ex now hvN
    obtain ⟨j, hjeq, hjfree, hjone⟩ :=
      find_free_spec ex (ex.length + 1) now ⟨k, by omega, hkfree⟩
    constructor
    · rw [hcur]
      exact hjfree
    · intro hge
      have hnlt : ¬ Timestamp.Lt now latest := by
        intro h
        exact hlt (by simpa [Timestamp.ltb, decide_eq_true_eq] using h)
      have heq : now = latest := by
        rcases hge with h | h
        · exact absurd h hnlt
        · exact h
      subst heq
      have hj1 : 1 ≤ j := hjone hmem
      rw [hcur, hjeq]
      exact Timestamp.lt_iterate_get_next _ hj1

/-- Witness for C2 at a concrete root: the root already holds a snapshot
named `2021-07-15_18.34` and the wall clock still reads that same minute;
the chosen timestamp is one minute later and its name is free. -/
theorem C2_new_snapshot_timestamp_witness :
    (get_timestamp_for_new_snapshot [(Timestamp.mk 2021 7 15 18 34).render]
        (Timestamp.mk 2021 7 15 18 34)
        (some (Timestamp.mk 2021 7 15 18 34))).render
      ∉ [(Timestamp.mk 2021 7 15 18 34).render] ∧
    ((Timestamp.Lt (Timestamp.mk 2021 7 15 18 34) (Timestamp.mk 2021 7 15 18 34) ∨
        Timestamp.mk 2021 7 15 18 34 = Timestamp.mk 2021 7 15 18 34) →
      (Timestamp.mk 2021 7 15 18 34).Lt
        (get_timestamp_for_new_snapshot [(Timestamp.mk 2021 7 15 18 34).render]
          (Timestamp.mk 2021 7 15 18 34) (some (Timestamp.mk 2021 7 15 18 34)))) :=
  C2_new_snapshot_timestamp [(Timestamp.mk 2021 7 15 18 34).render]
    (Timestamp.mk 2021 7 15 18 34) (Timestamp.mk 2021 7 15 18 34)
    (by decide) (by decide) (by decide)

/-- Witness for C9: the concrete canonical string `2021-07-15_18.34`
round-trips through `parse_from` and `Display`. -/
theorem C9_parse_format_round_trip_witness :
    ∃ t : Timestamp,
      Timestamp.parse_from (String.mk
        ['2', '0', '2', '1', '-', '0', '7', '-', '1', '5', '_', '1', '8', '.', '3', '4'])
        = some t ∧
      t.toString = String.mk
        ['2', '0', '2', '1', '-', '0', '7', '-', '1', '5', '_', '1', '8', '.', '3', '4'] :=
  C9_parse_format_round_trip.1
    ['2', '0', '2', '1', '-', '0', '7', '-', '1', '5', '_', '1', '8', '.', '3', '4']
    (by decide)

/-! ### Files-store path algebra (`src/backup/snapshot/files.rs`)

Paths are modelled as their ordered component sequences, the view
`std::path::Components` exposes.  A store path is a list of segments
relative to the `files` root.  (`PathBuf::push` of a segment containing a
separator — the UNC case — is modelled as a single segment.) -/

/-- `std::path::Prefix`: Windows path prefix kinds (string payloads; the
disk letter as a `Char`). -/
inductive PrefixKind
  | verbatim (s : String)
  | verbatimUNC (first second : String)
  | verbatimDisk (letter : Char)
  | deviceNS (s : String)
  | unc (first second : String)
  | disk (letter : Char)
deriving DecidableEq, Repr

/-- `std::path::Component`. -/
inductive Component
  | pfx (k : PrefixKind)
  | rootDir
  | curDir
  | parentDir
  | normal (s : String)
deriving DecidableEq, Repr

/-- `Files::get_disk_letter_from_prefix` (the `OsString` a prefix component
contributes; for UNC prefixes `PathBuf::from(first).join(second)`). -/
def get_disk_letter_from_pfx (k : PrefixKind) : String :=
  match k with
  | PrefixKind.verbatim s => s
  | PrefixKind.verbatimDisk letter => String.mk [letter]
  | PrefixKind.disk letter => String.mk [letter]
  | PrefixKind.deviceNS s => s
  | PrefixKind.verbatimUNC first second => first ++ "\\" ++ second
  | PrefixKind.unc first second => first ++ "\\" ++ second

/-- `Files::join_components_to_relative_path`. -/
def join_components_to_relative_path (components : List Component) : List String :=
  components.foldl (fun path component =>
    match component with
    | Component.pfx k => path ++ [get_disk_letter_from_pfx k]
    | Component.rootDir => path
    | Component.normal s => path ++ [s]
    | Component.curDir => path
    | Component.parentDir => path) []

/-- `Files::to_snapshot_path_unchecked`. -/
def to_snapshot_path_unchecked (root : List String) (entry : List Component) :
    List String :=
  root ++ join_components_to_relative_path entry

theorem join_components_foldl_normals (acc : List String) (names : List String) :
    List.foldl (fun path component =>
      match component with
      | Component.pfx k => path ++ [get_disk_letter_from_pfx k]
      | Component.rootDir => path
      | Component.normal s => path ++ [s]
      | Component.curDir => path
      | Component.parentDir => path) acc (names.map Component.normal) = acc ++ names := by
  induction names generalizing acc with
  | nil => simp
  | cons n ns ih =>
    simp only [List.map_cons, List.foldl_cons]
    rw [ih]
    simp

/-- C6 counterexample: the canonical absolute POSIX path `/a` maps to the
single-segment store path `a` — its root designator is dropped entirely,
leaving no leading segment for it, so the mapped path has length 1 and not
the two segments a collapsed-designator segment plus `a` would give. -/
theorem C6_counterexample :
    join_components_to_relative_path [Component.rootDir, Component.normal "a"] = ["a"] ∧
    (join_components_to_relative_path [Component.rootDir, Component.normal "a"]).length
      = 1 := by
  constructor <;> rfl

/-- C6 (amended).  The files-store location of an absolute canonical path is
the store root followed by, at most, a single leading segment for the
volume designator — exactly one for every Windows prefix kind, none for the
POSIX root — and then the normal components verbatim in order; the mapping
is a pure function of the component sequence. -/
theorem C6_store_path_mapping :
    (∀ (root : List String) (k : PrefixKind) (names : List String),
      to_snapshot_path_unchecked root
          (Component.pfx k :: Component.rootDir :: names.map Component.normal)
        = root ++ get_disk_letter_from_pfx k :: names) ∧
    (∀ (root : List String) (names : List String),
      to_snapshot_path_unchecked root (Component.rootDir :: names.map Component.normal)
        = root ++ names) := by
  constructor
  · intro root k names
    unfold to_snapshot_path_unchecked join_components_to_relative_path
    simp only [List.foldl_cons]
    rw [join_components_foldl_normals]
    simp
  · intro root names
    unfold to_snapshot_path_unchecked join_components_to_relative_path
    simp only [List.foldl_cons]
    rw [join_components_foldl_normals]
    simp

/-! ### Input path validation (`Backup::validate_input_paths`, `src/backup.rs`)

The filesystem enters through a `PathEnv`: which path strings currently
exist, and the canonical (symlink-resolved, component-normalised) form of
each path as a component-segment list, so that `Path::starts_with` on
canonical paths is list-prefix.  `canonicalize().unwrap()` is total here,
as in the code once nonexistent paths have been dropped. -/

structure PathEnv where
  pathExists : String → Bool
  canon : String → List String

/-- `Backup::remove_nonexistent_paths`. -/
def remove_nonexistent_paths (env : PathEnv) (paths : List String) : List String :=
  paths.filter env.pathExists

/-- The loop of `Backup::remove_duplicated_paths`: `filtered` is the
accumulated result, and a path is appended only when no already-kept path
has the same canonical form. -/
def remove_duplicated_go (env : PathEnv) : List String → List String → List String
  | filtered, [] => filtered
  | filtered, path :: rest =>
    if filtered.any (fun p => env.canon p == env.canon path)
    then remove_duplicated_go env filtered rest
    else remove_duplicated_go env (filtered ++ [path]) rest

/-- `Backup::remove_duplicated_paths`: keep the first path of each
canonical-equality class. -/
def remove_duplicated_paths (env : PathEnv) (paths : List String) : List String :=
  remove_duplicated_go env [] paths

/-- `Backup::remove_overlapping_paths`: drop a path when some other path of
the list is a proper canonical ancestor of it. -/
def remove_overlapping_paths (env : PathEnv) (paths : List String) : List String :=
  paths.filter (fun path =>
    !(paths.any (fun p =>
      (env.canon p).isPrefixOf (env.canon path) && !(env.canon path == env.canon p))))

/-- `Backup::validate_input_paths`. -/
def validate_input_paths (env : PathEnv) (paths : List String) : List String :=
  remove_overlapping_paths env (remove_duplicated_paths env (remove_nonexistent_paths env paths))

theorem remove_duplicated_go_append (env : PathEnv) :
    ∀ (l acc : List String), ∃ l', remove_duplicated_go env acc l = acc ++ l' ∧ List.Sublist l' l := by
  intro l
  induction l with
  | nil =>
    intro acc
    exact ⟨[], by simp [remove_duplicated_go], List.Sublist.refl _⟩
  | cons x xs ih =>
    intro acc
    by_cases hdup : acc.any (fun p => env.canon p == env.canon x) = true
    · obtain ⟨l', hl', hsub⟩ := ih acc
      exact ⟨l', by simp [remove_duplicated_go, hdup, hl'], hsub.cons x⟩
    · obtain ⟨l', hl', hsub⟩ := ih (acc ++ [x])
      refine ⟨x :: l', ?_, hsub.cons₂ x⟩
      rw [show remove_duplicated_go env acc (x :: xs)
          = remove_duplicated_go env (acc ++ [x]) xs from by
        simp [remove_duplicated_go, hdup]]
      rw [hl']
      simp

theorem remove_duplicated_paths_sublist (env : PathEnv) (l : List String) :
    List.Sublist (remove_duplicated_paths env l) l := by
  obtain ⟨l', hl', hsub⟩ := remove_duplicated_go_append env l []
  rw [remove_duplicated_paths, hl']
  simpa using hsub

theorem remove_duplicated_go_pairwise (env : PathEnv) :
    ∀ (l acc : List String),
      acc.Pairwise (fun a b => env.canon a ≠ env.canon b) →
      (remove_duplicated_go env acc l).Pairwise (fun a b => env.canon a ≠ env.canon b) := by
  intro l
  induction l with
  | nil =>
    intro acc h
    simpa [remove_duplicated_go] using h
  | cons x xs ih =>
    intro acc h
    by_cases hdup : acc.any (fun p => env.canon p == env.canon x) = true
    · rw [show remove_duplicated_go env acc (x :: xs)
          = remove_duplicated_go env acc xs from by simp [remove_duplicated_go, hdup]]
      exact ih acc h
    · rw [show remove_duplicated_go env acc (x :: xs)
          = remove_duplicated_go env (acc ++ [x]) xs from by
        simp [remove_duplicated_go, hdup]]
      refine ih (acc ++ [x]) ?_
      rw [List.pairwise_append]
      refine ⟨h, List.pairwise_singleton _ _, ?_⟩
      intro a ha b hb
      have hb' : b = x := by simpa using hb
      subst hb'
      have hdup' : (acc.any fun p => env.canon p == env.canon b) = false := by
        simpa using hdup
      simpa using List.any_eq_false.mp hdup' a ha

theorem remove_duplicated_go_of_pairwise (env : PathEnv) :
    ∀ (l acc : List String),
      (∀ a ∈ acc, ∀ b ∈ l, env.canon a ≠ env.canon b) →
      l.Pairwise (fun a b => env.canon a ≠ env.canon b) →
      remove_duplicated_go env acc l = acc ++ l := by
  intro l
  induction l with
  | nil =>
    intro acc _ _
    simp [remove_duplicated_go]
  | cons x xs ih =>
    intro acc hsep hpw
    have hdup : acc.any (fun p => env.canon p == env.canon x) = false := by
      rw [List.any_eq_false]
      intro a ha
      simpa using hsep a ha x (by simp)
    rw [show remove_duplicated_go env acc (x :: xs)
        = remove_duplicated_go env (acc ++ [x]) xs from by
      simp [remove_duplicated_go, hdup]]
    rw [ih (acc ++ [x]) ?_ (List.Pairwise.of_cons hpw)]
    · simp
    · intro a ha b hb
      rcases List.mem_append.mp ha with h | h
      · exact hsep a h b (by simp [hb])
      · have : a = x := by simpa using h
        subst this
        exact (List.pairwise_cons.mp hpw).1 b hb

theorem remove_duplicated_paths_of_pairwise (env : PathEnv) {l : List String}
    (h : l.Pairwise (fun a b => env.canon a ≠ env.canon b)) :
    remove_duplicated_paths env l = l := by
  rw [remove_duplicated_paths, remove_duplicated_go_of_pairwise env l [] (by simp) h]
  simp

/-- C7.  Input path validation — drop nonexistent paths, then canonical
duplicates keeping the first, then proper canonical descendants — is
idempotent: run on its own output it drops nothing. -/
theorem C7_validate_input_paths_idempotent (env : PathEnv) (paths : List String) :
    validate_input_paths env (validate_input_paths env paths)
      = validate_input_paths env paths := by
  set E := remove_nonexistent_paths env paths with hE
  set D := remove_duplicated_paths env E with hD
  set O := remove_overlapping_paths env D with hO
  have hOD : List.Sublist O D := List.filter_sublist _
  have hDE : List.Sublist D E := remove_duplicated_paths_sublist env E
  have h1 : remove_nonexistent_paths env O = O := by
    rw [remove_nonexistent_paths, List.filter_eq_self]
    intro a ha
    exact List.of_mem_filter (hDE.subset (hOD.subset ha))
  have hDp : D.Pairwise (fun a b => env.canon a ≠ env.canon b) :=
    remove_duplicated_go_pairwise env E [] (List.Pairwise.nil)
  have hOp : O.Pairwise (fun a b => env.canon a ≠ env.canon b) :=
    hDp.sublist hOD
  have h2 : remove_duplicated_paths env O = O :=
    remove_duplicated_paths_of_pairwise env hOp
  have h3 : remove_overlapping_paths env O = O := by
    rw [remove_overlapping_paths, List.filter_eq_self]
    intro a ha
    have haD := List.mem_filter.mp ha
    rw [Bool.not_eq_true', List.any_eq_false]
    intro p hp
    have hfalse : (D.any fun p =>
        (env.canon p).isPrefixOf (env.canon a) && !(env.canon a == env.canon p))
        = false := by
      have := haD.2
      rwa [Bool.not_eq_true'] at this
    exact List.any_eq_false.mp hfalse p (hOD.subset hp)
  show remove_overlapping_paths env
      (remove_duplicated_paths env (remove_nonexistent_paths env O)) = O
  rw [h1, h2, h3]

/-- C8.  Two distinct path strings with the same canonical path both survive
`remove_overlapping_paths`: the descendant rule only fires on pairs whose
canonical paths differ. -/
theorem C8_identical_canonical_survive (env : PathEnv) (p q : String)
    (hne : p ≠ q) (hc : env.canon p = env.canon q) :
    remove_overlapping_paths env [p, q] = [p, q] := by
  have h3 : (env.canon p == env.canon q) = true := by simp [hc]
  have h4 : (env.canon q == env.canon p) = true := by simp [hc]
  simp [remove_overlapping_paths, h3, h4]

/-- Witness for C8: the strings `a` and `b` under an environment giving them
the same canonical path both survive the overlap filter. -/
theorem C8_identical_canonical_survive_witness :
    remove_overlapping_paths (PathEnv.mk (fun _ => true) (fun _ => [])) ["a", "b"]
      = ["a", "b"] :=
  C8_identical_canonical_survive (PathEnv.mk (fun _ => true) (fun _ => [])) "a" "b"
    (by decide) rfl

/-! ### Integrity results and the index file (`src/result.rs`,
`src/backup/snapshot/index.rs`)

`IntegrityCheckResult` is Rust's `Result<(), IntegrityCheckError>`.  The
two entry-mismatch errors carry a `PathBuf`; here the indexed-but-missing
error carries a source path (component list) and the present-but-unindexed
error a store path (segment list), matching how the code fills them. -/

inductive IntegrityCheckError
  | SnapshotDoesntExist
  | SnapshotNameHasInvalidTimestamp (name : String)
  | IndexFileDoesntExist
  | FilesFolderDoesntExist
  | IndexFileContainsInvalidTimestampInLine (line : Nat)
  | IndexFileContainsInvalidPathInLine (line : Nat)
  | EntryIndexedButNotExists (path : List Component)
  | EntryExistsButNotIndexed (path : List String)
  | UnexpectedError (msg : String)
deriving DecidableEq, Repr

abbrev IntegrityCheckResult := Except IntegrityCheckError Unit

inductive IndexEntryParseError
  | SyntaxError
  | InvalidTimestamp
  | InvalidPath
deriving DecidableEq, Repr

/-- `str::split_once(' ')`: split at the first space. -/
def splitOnceSpace : List Char → Option (List Char × List Char)
  | [] => none
  | c :: rest =>
    if c = ' ' then some ([], rest)
    else
      match splitOnceSpace rest with
      | none => none
      | some (l, r) => some (c :: l, r)

/-- `str::trim` (ASCII whitespace at both ends). -/
def trimChars (cs : List Char) : List Char :=
  (((cs.dropWhile Char.isWhitespace).reverse).dropWhile Char.isWhitespace).reverse

/-- `Path::is_absolute` on Unix: the path starts at the root. -/
def isAbsolutePath (cs : List Char) : Bool :=
  match cs with
  | '/' :: _ => true
  | _ => false

/-- A parsed index line (`IndexEntry` in `index.rs`; the path kept as the
character form it was read in). -/
structure IndexLine where
  timestamp : Timestamp
  path : List Char
deriving DecidableEq, Repr

/-- `IndexEntry::from_line`. -/
def IndexEntry.from_line (line : List Char) : Except IndexEntryParseError IndexLine :=
  match splitOnceSpace line with
  | none => Except.error IndexEntryParseError.SyntaxError
  | some (timestamp_slice, path_slice) =>
    match Timestamp.parseChars timestamp_slice with
    | none => Except.error IndexEntryParseError.InvalidTimestamp
    | some timestamp =>
      let path := trimChars path_slice
      if isAbsolutePath path then Except.ok (IndexLine.mk timestamp path)
      else Except.error IndexEntryParseError.InvalidPath

/-- One attempted line read from `BufReader::lines()`: reading a line can
itself fail with an I/O error. -/
inductive LineRead
  | ioError
  | line (content : List Char)
deriving DecidableEq, Repr

/-- The line loop of `Index::check_integrity`; `line_num` is 1-based. -/
def check_integrity_go : List LineRead → Nat → IntegrityCheckResult
  | [], _ => Except.ok ()
  | LineRead.ioError :: _, _ =>
    Except.error (IntegrityCheckError.UnexpectedError "Error while reading index.txt")
  | LineRead.line content :: rest, line_num =>
    match IndexEntry.from_line content with
    | Except.ok _ => check_integrity_go rest (line_num + 1)
    | Except.error IndexEntryParseError.SyntaxError =>
      Except.error (IntegrityCheckError.IndexFileContainsInvalidTimestampInLine line_num)
    | Except.error IndexEntryParseError.InvalidTimestamp =>
      Except.error (IntegrityCheckError.IndexFileContainsInvalidTimestampInLine line_num)
    | Except.error IndexEntryParseError.InvalidPath =>
      Except.error (IntegrityCheckError.IndexFileContainsInvalidPathInLine line_num)

/-- `Index::check_integrity`.  `file_exists` is `location.exists()`; `lines`
are the successive reads of the opened file (the open itself is modelled as
succeeding whenever the file exists). -/
def Index.check_integrity (file_exists : Bool) (lines : List LineRead) :
    IntegrityCheckResult :=
  if !file_exists then Except.error IntegrityCheckError.IndexFileDoesntExist
  else check_integrity_go lines 1

/-- Does this read yield a line that parses cleanly? -/
def lineOk (l : LineRead) : Bool :=
  match l with
  | LineRead.ioError => false
  | LineRead.line cs => (IndexEntry.from_line cs).isOk

/-- The error `Index::check_integrity` reports for a failing read at
1-based line `n`. -/
def lineErrorKind (l : LineRead) (n : Nat) : Option IntegrityCheckError :=
  match l with
  | LineRead.ioError =>
    some (IntegrityCheckError.UnexpectedError "Error while reading index.txt")
  | LineRead.line cs =>
    match IndexEntry.from_line cs with
    | Except.ok _ => none
    | Except.error IndexEntryParseError.SyntaxError =>
      some (IntegrityCheckError.IndexFileContainsInvalidTimestampInLine n)
    | Except.error IndexEntryParseError.InvalidTimestamp =>
      some (IntegrityCheckError.IndexFileContainsInvalidTimestampInLine n)
    | Except.error IndexEntryParseError.InvalidPath =>
      some (IntegrityCheckError.IndexFileContainsInvalidPathInLine n)

/-- C4 counterexample: the four failure modes do not map to four distinct
error kinds.  A line with no space at all (split failure, here `foo`) and a
line whose timestamp token does not parse (here `x /a`) produce the very
same invalid-timestamp error kind; and a read I/O failure produces an
unexpected-error kind that carries no line number at all. -/
theorem C4_counterexample :
    Index.check_integrity true [LineRead.line ['f', 'o', 'o']]
      = Except.error (IntegrityCheckError.IndexFileContainsInvalidTimestampInLine 1) ∧
    Index.check_integrity true [LineRead.line ['x', ' ', '/', 'a']]
      = Except.error (IntegrityCheckError.IndexFileContainsInvalidTimestampInLine 1) ∧
    Index.check_integrity true [LineRead.ioError]
      = Except.error
          (IntegrityCheckError.UnexpectedError "Error while reading index.txt") := by
  refine ⟨?_, ?_, ?_⟩ <;> rfl

theorem check_integrity_go_ok :
    ∀ (lines : List LineRead) (n : Nat), (∀ l ∈ lines, lineOk l = true) →
      check_integrity_go lines n = Except.ok () := by
  intro lines
  induction lines with
  | nil =>
    intro n _
    rfl
  | cons l rest ih =>
    intro n h
    cases l with
    | ioError =>
      exact absurd (h LineRead.ioError (by simp)) (by simp [lineOk])
    | line cs =>
      have hok := h (LineRead.line cs) (by simp)
      rcases hfl : IndexEntry.from_line cs with e | v
      · rw [lineOk, hfl] at hok
        simp [Except.isOk, Except.toBool] at hok
      · rw [show check_integrity_go (LineRead.line cs :: rest) n
            = check_integrity_go rest (n + 1) from by
          simp [check_integrity_go, hfl]]
        exact ih (n + 1) (fun x hx => h x (by simp [hx]))

theorem check_integrity_go_error :
    ∀ (pre : List LineRead) (n : Nat) (l : LineRead) (post : List LineRead)
      (e : IntegrityCheckError),
      (∀ x ∈ pre, lineOk x = true) → lineErrorKind l (n + pre.length) = some e →
      check_integrity_go (pre ++ l :: post) n = Except.error e := by
  intro pre
  induction pre with
  | nil =>
    intro n l post e _ hkind
    simp only [List.length_nil, Nat.add_zero] at hkind
    cases l with
    | ioError =>
      simp only [lineErrorKind, Option.some.injEq] at hkind
      subst hkind
      rfl
    | line cs =>
      rcases hfl : IndexEntry.from_line cs with err | v
      · rw [lineErrorKind, hfl] at hkind
        cases err <;> simp only [Option.some.injEq] at hkind <;> subst hkind <;>
          simp [check_integrity_go, hfl]
      · rw [lineErrorKind, hfl] at hkind
        exact absurd hkind (by simp)
  | cons x pre ih =>
    intro n l post e hpre hkind
    cases x with
    | ioError =>
      exact absurd (hpre LineRead.ioError (by simp)) (by simp [lineOk])
    | line cs =>
      have hok := hpre (LineRead.line cs) (by simp)
      rcases hfl : IndexEntry.from_line cs with err | v
      · rw [lineOk, hfl] at hok
        simp [Except.isOk, Except.toBool] at hok
      · rw [show (LineRead.line cs :: pre) ++ l :: post
            = LineRead.line cs :: (pre ++ l :: post) from rfl]
        rw [show check_integrity_go (LineRead.line cs :: (pre ++ l :: post)) n
            = check_integrity_go (pre ++ l :: post) (n + 1) from by
          simp [check_integrity_go, hfl]]
        refine ih (n + 1) l post e (fun y hy => hpre y (by simp [hy])) ?_
        rw [show n + 1 + pre.length = n + (LineRead.line cs :: pre).length from by
          simp
          omega]
        exact hkind

/-- C4 (amended).  `Index::check_integrity` validates existence first, then
processes the lines in order and stops at the first violation: a missing
file gives the missing-index error; a file whose every line parses gives
the no-problems result; and the first failing line, at 1-based position
`pre.length + 1`, yields its mapped error kind — where a split failure and
an unparsable timestamp both map to the invalid-timestamp-in-line kind
carrying the line number, a non-absolute path maps to the
invalid-path-in-line kind carrying the line number, and an I/O read
failure maps to the unexpected-error kind, which carries no line number. -/
theorem C4_check_integrity_first_violation :
    (∀ lines : List LineRead,
      Index.check_integrity false lines
        = Except.error IntegrityCheckError.IndexFileDoesntExist) ∧
    (∀ lines : List LineRead, (∀ l ∈ lines, lineOk l = true) →
      Index.check_integrity true lines = Except.ok ()) ∧
    (∀ (pre : List LineRead) (l : LineRead) (post : List LineRead)
        (e : IntegrityCheckError),
      (∀ x ∈ pre, lineOk x = true) → lineErrorKind l (pre.length + 1) = some e →
      Index.check_integrity true (pre ++ l :: post) = Except.error e) := by
  refine ⟨?_, ?_, ?_⟩
  · intro lines
    rfl
  · intro lines h
    rw [Index.check_integrity]
    simpa using check_integrity_go_ok lines 1 h
  · intro pre l post e hpre hkind
    rw [Index.check_integrity]
    simp only [Bool.not_true, Bool.false_eq_true, if_false]
    exact check_integrity_go_error pre 1 l post e hpre (by
      rwa [Nat.add_comm 1 pre.length])

/-- Witness for C4 (amended): one clean line followed by the split-failure
line `foo` is reported as an invalid timestamp in line 2. -/
theorem C4_check_integrity_first_violation_witness :
    Index.check_integrity true
        [LineRead.line ['2', '0', '2', '1', '-', '0', '7', '-', '1', '5', '_', '1', '8',
          '.', '3', '4', ' ', '/', 'a'],
         LineRead.line ['f', 'o', 'o']]
      = Except.error (IntegrityCheckError.IndexFileContainsInvalidTimestampInLine 2) :=
  C4_check_integrity_first_violation.2.2
    [LineRead.line ['2', '0', '2', '1', '-', '0', '7', '-', '1', '5', '_', '1', '8',
      '.', '3', '4', ' ', '/', 'a']]
    (LineRead.line ['f', 'o', 'o']) [] _ (by decide) (by decide)

/-! ### Files-store integrity (`Files::check_integrity`, `files.rs`)

The walk of the store is given as the list `physical` of store paths in
the order `WalkDir` yields them (parents before children, every entry
once); walk errors are not modelled (the claim concerns the successful
walk).  `index_map` is a `HashMap`; it is modelled as an association list
in insertion order — `HashMap` iteration order is unspecified, and the
final indexed-but-not-present report picks whichever remaining entry
iteration yields first, here the first in insertion order. -/

/-- `HashMap::insert` (overwrite on an existing key). -/
def insertKeyIndexed (m : List (List String × List Component)) (k : List String)
    (v : List Component) : List (List String × List Component) :=
  if m.any (fun p => p.1 == k) then m.map (fun p => if p.1 == k then (k, v) else p)
  else m ++ [(k, v)]

/-- `HashMap::remove`. -/
def eraseKeyIndexed (m : List (List String × List Component)) (k : List String) :
    List (List String × List Component) :=
  m.filter (fun p => !(p.1 == k))

/-- The `index_map` of `Files::check_integrity`: store path of each indexed
file, mapped back to the indexed file. -/
def buildIndexMap (root : List String) (indexed : List (List Component)) :
    List (List String × List Component) :=
  indexed.foldl (fun m p => insertKeyIndexed m (to_snapshot_path_unchecked root p) p) []

/-- The walk loop of `Files::check_integrity`: each physical entry is
removed from the map; an entry neither in the map nor an ancestor of a
remaining mapped path is reported; after the walk any remaining mapped
path is reported as missing. -/
def files_check_go :
    List (List String × List Component) → List (List String) → IntegrityCheckResult
  | m, [] =>
    match m with
    | [] => Except.ok ()
    | (_, index_path) :: _ =>
      Except.error (IntegrityCheckError.EntryIndexedButNotExists index_path)
  | m, entry :: rest =>
    if !(m.any (fun p => p.1 == entry)) &&
        !((eraseKeyIndexed m entry).any (fun p => List.isPrefixOf entry p.1)) then
      Except.error (IntegrityCheckError.EntryExistsButNotIndexed entry)
    else files_check_go (eraseKeyIndexed m entry) rest

/-- `Files::check_integrity`.  `store_exists` is the
`location.exists() && location.is_dir()` check (made after the map is
built, as in the code). -/
def Files.check_integrity (root : List String) (indexed : List (List Component))
    (store_exists : Bool) (physical : List (List String)) : IntegrityCheckResult :=
  let m := buildIndexMap root indexed
  if !store_exists then Except.error IntegrityCheckError.FilesFolderDoesntExist
  else files_check_go m physical

/-- A physical store entry is accounted for when it is the mapped location
of an indexed path, or an ancestor directory of one (the claim's two
allowed cases; equality is included in `isPrefixOf`). -/
def accountedFor (locals : List (List String)) (entry : List String) : Bool :=
  locals.any (fun q => List.isPrefixOf entry q)

/-- Entries of the map whose key has not yet been visited. -/
def removeSeen (m : List (List String × List Component)) (seen : List (List String)) :
    List (List String × List Component) :=
  m.filter (fun p => !(seen.contains p.1))

theorem map_fst_filter_key {α β : Type} (m : List (α × β)) (q : α → Bool) :
    (m.filter (fun p => q p.1)).map Prod.fst = (m.map Prod.fst).filter q := by
  induction m with
  | nil => rfl
  | cons x xs ih =>
    by_cases h : q x.1 = true <;> simp [List.filter_cons, h, ih]

theorem eraseKey_removeSeen (m0 : List (List String × List Component))
    (seen : List (List String)) (e : List String) :
    eraseKeyIndexed (removeSeen m0 seen) e = removeSeen m0 (seen ++ [e]) := by
  unfold eraseKeyIndexed removeSeen
  rw [List.filter_filter]
  apply List.filter_congr
  intro p _
  by_cases h1 : p.1 = e <;> by_cases h2 : p.1 ∈ seen <;>
    simp [h1, h2, List.elem_iff]

theorem mem_removeSeen {m0 : List (List String × List Component)}
    {seen : List (List String)} {p : List String × List Component} :
    p ∈ removeSeen m0 seen ↔ p ∈ m0 ∧ p.1 ∉ seen := by
  unfold removeSeen
  rw [List.mem_filter]
  simp [List.elem_iff]

theorem isPrefixOf_self (l : List String) : List.isPrefixOf l l = true := by
  rw [List.isPrefixOf_iff_prefix]

theorem e_not_mem_of_prefix_false {seen : List (List String)} {e : List String}
    (hp : ∀ s ∈ seen, List.isPrefixOf e s = false) : e ∉ seen := by
  intro hmem
  have := hp e hmem
  rw [isPrefixOf_self] at this
  simp at this

/-- At one walk step, the code's was-indexed-or-ancestor test over the
remaining map coincides with being accounted for by the full indexed set,
provided every already-seen entry has no later entry as ancestor. -/
theorem files_step_cond (m0 : List (List String × List Component))
    (seen : List (List String)) (e : List String)
    (hp : ∀ s ∈ seen, List.isPrefixOf e s = false) :
    (((removeSeen m0 seen).any (fun p => p.1 == e)) ||
      ((eraseKeyIndexed (removeSeen m0 seen) e).any
        (fun p => List.isPrefixOf e p.1)))
      = accountedFor (m0.map Prod.fst) e := by
  have hnot : e ∉ seen := e_not_mem_of_prefix_false hp
  rw [Bool.eq_iff_iff]
  rw [Bool.or_eq_true, List.any_eq_true, List.any_eq_true]
  rw [accountedFor, List.any_eq_true]
  constructor
  · rintro (⟨p, hpm, hpe⟩ | ⟨p, hpm, hpre⟩)
    · have hpe' : p.1 = e := by simpa using hpe
      refine ⟨p.1, List.mem_map_of_mem Prod.fst (mem_removeSeen.mp hpm).1, ?_⟩
      rw [hpe']
      exact isPrefixOf_self e
    · rw [eraseKey_removeSeen] at hpm
      exact ⟨p.1, List.mem_map_of_mem Prod.fst (mem_removeSeen.mp hpm).1, hpre⟩
  · rintro ⟨k, hk, hpre⟩
    obtain ⟨p, hpm, rfl⟩ := List.mem_map.mp hk
    by_cases heq : p.1 = e
    · left
      refine ⟨p, mem_removeSeen.mpr ⟨hpm, ?_⟩, by simp [heq]⟩
      rw [heq]
      exact hnot
    · right
      have hpseen : p.1 ∉ seen := by
        intro hmem
        have := hp p.1 hmem
        rw [hpre] at this
        simp at this
      rw [eraseKey_removeSeen]
      refine ⟨p, mem_removeSeen.mpr ⟨hpm, ?_⟩, hpre⟩
      intro hmem
      rcases List.mem_append.mp hmem with h | h
      · exact hpseen h
      · exact heq (by simpa using h)

theorem pairwise_head_rel {R : List String → List String → Prop}
    {seen rest : List (List String)} {e : List String}
    (h : (seen ++ e :: rest).Pairwise R) : ∀ s ∈ seen, R s e := by
  intro s hs
  exact (List.pairwise_append.mp h).2.2 s hs e (by simp)

theorem files_go_first_violation (m0 : List (List String × List Component)) :
    ∀ (pre seen : List (List String)) (e : List String) (post : List (List String)),
      (seen ++ pre ++ e :: post).Pairwise (fun a b => List.isPrefixOf b a = false) →
      (∀ x ∈ pre, accountedFor (m0.map Prod.fst) x = true) →
      accountedFor (m0.map Prod.fst) e = false →
      files_check_go (removeSeen m0 seen) (pre ++ e :: post)
        = Except.error (IntegrityCheckError.EntryExistsButNotIndexed e) := by
  intro pre
  induction pre with
  | nil =>
    intro seen e post hpw hpre hnot
    have hp : ∀ s ∈ seen, List.isPrefixOf e s = false := by
      have hpw' : (seen ++ e :: post).Pairwise
          (fun a b => List.isPrefixOf b a = false) := by simpa using hpw
      exact pairwise_head_rel hpw'
    have hcond := files_step_cond m0 seen e hp
    rw [hnot] at hcond
    have h1 : ((removeSeen m0 seen).any (fun p => p.1 == e)) = false := by
      rcases Bool.or_eq_false_iff.mp hcond with ⟨h, _⟩
      exact h
    have h2 : ((eraseKeyIndexed (removeSeen m0 seen) e).any
        (fun p => List.isPrefixOf e p.1)) = false := by
      rcases Bool.or_eq_false_iff.mp hcond with ⟨_, h⟩
      exact h
    show files_check_go (removeSeen m0 seen) (e :: post) = _
    rw [files_check_go]
    simp [h1, h2]
  | cons p pre ih =>
    intro seen e post hpw hpre hnot
    have hp : ∀ s ∈ seen, List.isPrefixOf p s = false := by
      have hpw' : (seen ++ p :: (pre ++ e :: post)).Pairwise
          (fun a b => List.isPrefixOf b a = false) := by simpa using hpw
      exact pairwise_head_rel hpw'
    have hcond := files_step_cond m0 seen p hp
    rw [hpre p (by simp)] at hcond
    show files_check_go (removeSeen m0 seen) (p :: (pre ++ e :: post)) = _
    rw [files_check_go]
    rcases Bool.or_eq_true_iff.mp hcond with h | h
    · rw [h]
      simp only [Bool.not_true, Bool.false_and, Bool.false_eq_true, if_false]
      rw [eraseKey_removeSeen]
      exact ih (seen ++ [p]) e post (by simpa using hpw)
        (fun x hx => hpre x (by simp [hx])) hnot
    · rw [h]
      simp only [Bool.not_true, Bool.and_false, Bool.false_eq_true, if_false]
      rw [eraseKey_removeSeen]
      exact ih (seen ++ [p]) e post (by simpa using hpw)
        (fun x hx => hpre x (by simp [hx])) hnot

theorem files_go_complete (m0 : List (List String × List Component)) :
    ∀ (rest seen : List (List String)),
      (seen ++ rest).Pairwise (fun a b => List.isPrefixOf b a = false) →
      (∀ x ∈ rest, accountedFor (m0.map Prod.fst) x = true) →
      files_check_go (removeSeen m0 seen) rest
        = (match removeSeen m0 (seen ++ rest) with
          | [] => Except.ok ()
          | (_, index_path) :: _ =>
            Except.error (IntegrityCheckError.EntryIndexedButNotExists index_path)) := by
  intro rest
  induction rest with
  | nil =>
    intro seen _ _
    rw [List.append_nil]
    rfl
  | cons e rest ih =>
    intro seen hpw hacc
    have hp : ∀ s ∈ seen, List.isPrefixOf e s = false := pairwise_head_rel hpw
    have hcond := files_step_cond m0 seen e hp
    rw [hacc e (by simp)] at hcond
    show files_check_go (removeSeen m0 seen) (e :: rest) = _
    rw [files_check_go]
    have hif : (!((removeSeen m0 seen).any (fun p => p.1 == e)) &&
        !((eraseKeyIndexed (removeSeen m0 seen) e).any
          (fun p => List.isPrefixOf e p.1))) = false := by
      rcases Bool.or_eq_true_iff.mp hcond with h | h <;> rw [h] <;> simp
    rw [hif]
    simp only [Bool.false_eq_true, if_false]
    rw [eraseKey_removeSeen]
    rw [ih (seen ++ [e]) (by simpa using hpw) (fun x hx => hacc x (by simp [hx]))]
    rw [show seen ++ [e] ++ rest = seen ++ e :: rest from by simp]

theorem buildIndexMap_go (root : List String) :
    ∀ (l : List (List Component)) (acc : List (List String × List Component)),
      (∀ p ∈ l, ∀ q ∈ acc, q.1 ≠ to_snapshot_path_unchecked root p) →
      (l.map (to_snapshot_path_unchecked root)).Nodup →
      List.foldl (fun m p => insertKeyIndexed m (to_snapshot_path_unchecked root p) p)
        acc l
        = acc ++ l.map (fun p => (to_snapshot_path_unchecked root p, p)) := by
  intro l
  induction l with
  | nil =>
    intro acc _ _
    simp
  | cons x xs ih =>
    intro acc hsep hnd
    have hany : (acc.any
        (fun p => p.1 == to_snapshot_path_unchecked root x)) = false := by
      rw [List.any_eq_false]
      intro q hq
      simpa using hsep x (by simp) q hq
    rw [List.foldl_cons]
    rw [show insertKeyIndexed acc (to_snapshot_path_unchecked root x) x
        = acc ++ [(to_snapshot_path_unchecked root x, x)] from by
      simp [insertKeyIndexed, hany]]
    have hnd' : (∀ y ∈ xs, ¬ to_snapshot_path_unchecked root y
          = to_snapshot_path_unchecked root x) ∧
        (xs.map (to_snapshot_path_unchecked root)).Nodup := by
      simpa using hnd
    rw [ih (acc ++ [(to_snapshot_path_unchecked root x, x)]) ?_ hnd'.2]
    · simp
    · intro p hp q hq
      rcases List.mem_append.mp hq with h | h
      · exact hsep p (by simp [hp]) q h
      · have : q = (to_snapshot_path_unchecked root x, x) := by simpa using h
        subst this
        intro hcon
        have hcon' : to_snapshot_path_unchecked root x
            = to_snapshot_path_unchecked root p := hcon
        exact hnd'.1 p hp hcon'.symm

theorem buildIndexMap_eq (root : List String) (indexed : List (List Component))
    (h : (indexed.map (to_snapshot_path_unchecked root)).Nodup) :
    buildIndexMap root indexed
      = indexed.map (fun p => (to_snapshot_path_unchecked root p, p)) := by
  rw [buildIndexMap, buildIndexMap_go root indexed [] (by simp) h]
  simp

/-- C5.  `Files::check_integrity` over a store whose walk lists parents
before children and visits each entry once: the first physical entry that
neither is the mapped location of an indexed path nor an ancestor of one is
reported as present-but-not-indexed, naming exactly that entry; if every
physical entry is accounted for, either some indexed path was never
matched and one such path is reported as indexed-but-not-present, or the
check succeeds.  At most one finding is returned. -/
theorem C5_files_check_integrity (root : List String) (indexed : List (List Component))
    (physical : List (List String))
    (hkeys : (indexed.map (to_snapshot_path_unchecked root)).Nodup)
    (hpw : physical.Pairwise (fun a b => List.isPrefixOf b a = false)) :
    (∀ (pre : List (List String)) (e : List String) (post : List (List String)),
      physical = pre ++ e :: post →
      (∀ x ∈ pre, accountedFor (indexed.map (to_snapshot_path_unchecked root)) x
        = true) →
      accountedFor (indexed.map (to_snapshot_path_unchecked root)) e = false →
      Files.check_integrity root indexed true physical
        = Except.error (IntegrityCheckError.EntryExistsButNotIndexed e)) ∧
    ((∀ x ∈ physical, accountedFor (indexed.map (to_snapshot_path_unchecked root)) x
        = true) →
      (∀ p ∈ indexed, to_snapshot_path_unchecked root p ∈ physical) →
      Files.check_integrity root indexed true physical = Except.ok ()) ∧
    ((∀ x ∈ physical, accountedFor (indexed.map (to_snapshot_path_unchecked root)) x
        = true) →
      (∃ p ∈ indexed, to_snapshot_path_unchecked root p ∉ physical) →
      ∃ p ∈ indexed, to_snapshot_path_unchecked root p ∉ physical ∧
        Files.check_integrity root indexed true physical
          = Except.error (IntegrityCheckError.EntryIndexedButNotExists p)) := by
  have hm0 : buildIndexMap root indexed
      = indexed.map (fun p => (to_snapshot_path_unchecked root p, p)) :=
    buildIndexMap_eq root indexed hkeys
  have hmkeys : (buildIndexMap root indexed).map Prod.fst
      = indexed.map (to_snapshot_path_unchecked root) := by
    rw [hm0, List.map_map]
    rfl
  have hrun : Files.check_integrity root indexed true physical
      = files_check_go (removeSeen (buildIndexMap root indexed) []) physical := by
    rw [Files.check_integrity]
    simp only [Bool.not_true, Bool.false_eq_true, if_false]
    rw [show removeSeen (buildIndexMap root indexed) [] = buildIndexMap root indexed
      from by simp [removeSeen]]
  refine ⟨?_, ?_, ?_⟩
  · intro pre e post hsplit hpre hnot
    rw [hrun, hsplit]
    refine files_go_first_violation (buildIndexMap root indexed) pre [] e post ?_ ?_ ?_
    · rw [List.nil_append]
      rw [hsplit] at hpw
      exact hpw
    · intro x hx
      rw [hmkeys]
      exact hpre x hx
    · rw [hmkeys]
      exact hnot
  · intro hacc hall
    rw [hrun]
    rw [files_go_complete (buildIndexMap root indexed) physical [] (by simpa using hpw)
      (by
        intro x hx
        rw [hmkeys]
        exact hacc x hx)]
    rw [List.nil_append]
    have hempty : removeSeen (buildIndexMap root indexed) physical = [] := by
      rw [removeSeen, List.filter_eq_nil_iff]
      intro p hp
      rw [hm0] at hp
      obtain ⟨q, hq, rfl⟩ := List.mem_map.mp hp
      simp only [Bool.not_eq_true', Bool.not_eq_false]
      rw [List.elem_iff]
      exact hall q hq
    rw [hempty]
  · intro hacc ⟨p0, hp0, hp0out⟩
    rw [hrun]
    rw [files_go_complete (buildIndexMap root indexed) physical [] (by simpa using hpw)
      (by
        intro x hx
        rw [hmkeys]
        exact hacc x hx)]
    rw [List.nil_append]
    rcases hrem : removeSeen (buildIndexMap root indexed) physical with _ | ⟨⟨k, q⟩, tl⟩
    · exfalso
      have : (to_snapshot_path_unchecked root p0, p0)
          ∈ removeSeen (buildIndexMap root indexed) physical := by
        refine mem_removeSeen.mpr ⟨?_, hp0out⟩
        rw [hm0]
        exact List.mem_map_of_mem _ hp0
      rw [hrem] at this
      exact List.not_mem_nil _ this
    · have hmem : (k, q) ∈ removeSeen (buildIndexMap root indexed) physical := by
        rw [hrem]
        simp
      obtain ⟨hin, hout⟩ := mem_removeSeen.mp hmem
      rw [hm0] at hin
      obtain ⟨q', hq', heq⟩ := List.mem_map.mp hin
      have hq1 : k = to_snapshot_path_unchecked root q' := by
        have := congrArg Prod.fst heq
        exact this.symm
      have hq2 : q = q' := by
        have := congrArg Prod.snd heq
        exact this.symm
      subst hq2
      refine ⟨q, hq', ?_, rfl⟩
      rw [← hq1]
      exact hout

/-- Witness for C5: a store holding exactly the mapped copy of the single
indexed path `/a` passes the files integrity check. -/
theorem C5_files_check_integrity_witness :
    Files.check_integrity ["files"] [[Component.rootDir, Component.normal "a"]] true
      [["files", "a"]] = Except.ok () :=
  (C5_files_check_integrity ["files"] [[Component.rootDir, Component.normal "a"]]
    [["files", "a"]] (by decide) (by decide)).2.1 (by decide) (by decide)

/-! ### The snapshot engine (`src/backup/snapshot.rs`, `files.rs`)

A visited filesystem node enters the model as an `FsEntry`: the result of
`fs::canonicalize` on it (`none` when canonicalization fails — used both by
`IndexPreview::find` and by `to_snapshot_path`), its type, its bytes, and
explicit success values for the metadata reads (`symlink_metadata`,
`modified`, `created`) and for the byte copy (`fs::copy`).  A symlink node
additionally carries the canonicalized parent, its file name and the
`read_link` target.  The files store being written is an association list
from store-relative segment paths to nodes. -/

inductive FType
  | dir
  | file
  | symlink
  | other
deriving DecidableEq, Repr

structure FsEntry where
  canonical : Option (List Component)
  ftype : FType
  content : List Nat
  metaOk : Bool
  mtime : Option Timestamp
  ctime : Option Timestamp
  copyOk : Bool
  parentCanonical : Option (List Component)
  fileName : Option String
  linkTarget : Option (List Nat)
deriving DecidableEq, Repr

inductive StoreNode
  | dir
  | file (content : List Nat)
  | symlink (target : List Nat)
deriving DecidableEq, Repr

abbrev Store := List (List String × StoreNode)

def lookupStore (st : Store) (k : List String) : Option StoreNode :=
  match st with
  | [] => none
  | (k', v) :: rest => if k' = k then some v else lookupStore rest k

/-- Write a node at a path (`fs::copy` and `symlink` overwrite semantics at
one path). -/
def setStore (st : Store) (k : List String) (v : StoreNode) : Store :=
  match st with
  | [] => [(k, v)]
  | (k', v') :: rest =>
    if k' = k then (k, v) :: rest else (k', v') :: setStore rest k v

/-- The nonempty proper prefixes of a path, then the path itself — the
directories `fs::create_dir_all` creates in order. -/
def dirChain (k : List String) : List (List String) :=
  (List.range k.length).map (fun i => k.take (i + 1))

/-- One directory creation of `fs::create_dir_all`: create the directory if
missing, tolerate an existing directory, fail on any other node. -/
def createDirStep (acc : Option Store) (d : List String) : Option Store :=
  match acc with
  | none => none
  | some s =>
    match lookupStore s d with
    | none => some (setStore s d StoreNode.dir)
    | some StoreNode.dir => some s
    | some _ => none

/-- `fs::create_dir_all`: create every missing directory on the chain;
fail if a non-directory node occupies any of them. -/
def createDirAll (st : Store) (k : List String) : Option Store :=
  (dirChain k).foldl createDirStep (some st)

/-- `Files::copy_entry`, returning the updated store and the destination
path.  Mirrors the Unix build (symlinks are recreated, not followed). -/
def copy_entry (st : Store) (e : FsEntry) : Option (Store × List String) :=
  if !e.metaOk then none
  else
    match e.ftype with
    | FType.dir =>
      match e.canonical with
      | none => none
      | some c =>
        match createDirAll st (join_components_to_relative_path c) with
        | none => none
        | some st' => some (st', join_components_to_relative_path c)
    | FType.file =>
      match e.canonical with
      | none => none
      | some c =>
        let dest := join_components_to_relative_path c
        let parent := dest.dropLast
        let withParent :=
          if parent ≠ [] ∧ lookupStore st parent = none then createDirAll st parent
          else some st
        match withParent with
        | none => none
        | some st' =>
          if e.copyOk ∧ lookupStore st' dest ≠ some StoreNode.dir then
            some (setStore st' dest (StoreNode.file e.content), dest)
          else none
    | FType.symlink =>
      match e.parentCanonical, e.fileName, e.linkTarget with
      | some pc, some fn, some tgt =>
        let destParent := join_components_to_relative_path pc
        let dest := destParent ++ [fn]
        let withParent :=
          if destParent ≠ [] ∧ lookupStore st destParent = none then
            createDirAll st destParent
          else some st
        match withParent with
        | none => none
        | some st' =>
          if lookupStore st' dest = none then
            some (setStore st' dest (StoreNode.symlink tgt), dest)
          else none
      | _, _, _ => none
    | FType.other => none

/-- The state a snapshot builds up: its own timestamp, the index being
accumulated, the files store, and the optional baseline index
(`SnapshotConfig::base_index`, a path-to-timestamp view). -/
structure SnapState where
  timestamp : Timestamp
  index : List (Timestamp × List Component)
  store : Store
  base : Option (List (List Component × Timestamp))
deriving DecidableEq, Repr

/-- `IndexPreview::find` after the canonicalization of the query (the
canonical path is taken from the entry). -/
def findInBase (b : List (List Component × Timestamp)) (c : List Component) :
    Option Timestamp :=
  match b with
  | [] => none
  | (p, t) :: rest => if p = c then some t else findInBase rest c

/-- `Snapshot::is_entry_already_backed_up`: the `?`-chain over the baseline
lookup and the three metadata reads, then the margin comparison. -/
def is_entry_already_backed_up (st : SnapState) (e : FsEntry) : Option Timestamp :=
  match st.base with
  | none => none
  | some b =>
    match e.canonical with
    | none => none
    | some c =>
      match findInBase b c with
      | none => none
      | some prev_timestamp =>
        if !e.metaOk then none
        else
          match e.mtime with
          | none => none
          | some modif_timestamp =>
            match e.ctime with
            | none => none
            | some create_timestamp =>
              if Timestamp.ltb prev_timestamp.sub_minute modif_timestamp ||
                  Timestamp.ltb prev_timestamp.sub_minute create_timestamp then none
              else some prev_timestamp

/-- `Snapshot::index_entry`: canonicalize, then append to the index
(a canonicalization failure only logs). -/
def index_entry (st : SnapState) (timestamp : Timestamp) (e : FsEntry) : SnapState :=
  match e.canonical with
  | none => st
  | some absolute_path =>
    { st with index := st.index ++ [(timestamp, absolute_path)] }

/-- `Snapshot::copy_and_index_entry`: index with the snapshot's own
timestamp only when the copy succeeded. -/
def copy_and_index_entry (st : SnapState) (e : FsEntry) : SnapState :=
  match copy_entry st.store e with
  | some (store', _) => index_entry { st with store := store' } st.timestamp e
  | none => st

/-- The per-entry body of `Snapshot::add_files_to_snapshot`. -/
def processEntry (st : SnapState) (e : FsEntry) : SnapState :=
  match is_entry_already_backed_up st e with
  | some prev_timestamp => index_entry st prev_timestamp e
  | none => copy_and_index_entry st e

/-- `Snapshot::add_files_to_snapshot`: iterate over the walk; a traversal
error skips the node. -/
def add_files_to_snapshot (st : SnapState) (walk : List (Except Unit FsEntry)) :
    SnapState :=
  walk.foldl
    (fun s it =>
      match it with
      | Except.error _ => s
      | Except.ok e => processEntry s e)
    st

/-- Modelled from the spec's words (for comparison against the code in C1):
an entry found in the baseline counts as changed when
some available metadata time — modification or creation, whichever reads
succeed — is strictly newer than the recorded timestamp minus the
one-minute margin. -/
def availableTimesNewer (e : FsEntry) (prev : Timestamp) : Bool :=
  (match e.mtime with
   | some m => Timestamp.ltb prev.sub_minute m
   | none => false) ||
  (match e.ctime with
   | some c => Timestamp.ltb prev.sub_minute c
   | none => false)

/-- C1 counterexample: a file whose canonical path is in the baseline with
timestamp `2021-07-15_18.34`, whose modification time (10.00 the same day)
is well older than the margin and whose creation time is unavailable.  No
available metadata time is newer than `T - margin`, yet the code copies the
entry (the store grows) and indexes it with the new snapshot's own
timestamp instead of appending an entry reusing `T`. -/
theorem C1_counterexample :
    availableTimesNewer
      (FsEntry.mk (some [Component.rootDir, Component.normal "a"]) FType.file [104]
        true (some (Timestamp.mk 2021 7 15 10 0)) none true none none none)
      (Timestamp.mk 2021 7 15 18 34) = false ∧
    (processEntry
      (SnapState.mk (Timestamp.mk 2021 7 16 9 0) [] []
        (some [([Component.rootDir, Component.normal "a"], Timestamp.mk 2021 7 15 18 34)]))
      (FsEntry.mk (some [Component.rootDir, Component.normal "a"]) FType.file [104]
        true (some (Timestamp.mk 2021 7 15 10 0)) none true none none none)).store
      = [(["a"], StoreNode.file [104])] ∧
    (processEntry
      (SnapState.mk (Timestamp.mk 2021 7 16 9 0) [] []
        (some [([Component.rootDir, Component.normal "a"], Timestamp.mk 2021 7 15 18 34)]))
      (FsEntry.mk (some [Component.rootDir, Component.normal "a"]) FType.file [104]
        true (some (Timestamp.mk 2021 7 15 10 0)) none true none none none)).index
      = [(Timestamp.mk 2021 7 16 9 0, [Component.rootDir, Component.normal "a"])] ∧
    Timestamp.mk 2021 7 16 9 0 ≠ Timestamp.mk 2021 7 15 18 34 := by
  refine ⟨?_, ?_, ?_, ?_⟩ <;> decide

/-- C1 (amended).  For an entry whose canonical path the baseline records
with timestamp `T`, when the symlink metadata and both file times read
successfully: if the modification or the creation time is strictly newer
than `T` minus the one-minute margin, the entry is copied into the files
store and indexed with this snapshot's own timestamp (provided the copy
succeeds); otherwise nothing is copied and an index entry reusing `T` is
appended. -/
theorem C1_incremental_decision (st : SnapState) (e : FsEntry)
    (b : List (List Component × Timestamp)) (c : List Component) (T m cr : Timestamp)
    (hb : st.base = some b) (hc : e.canonical = some c)
    (hfind : findInBase b c = some T) (hmeta : e.metaOk = true)
    (hm : e.mtime = some m) (hcr : e.ctime = some cr) :
    ((Timestamp.ltb T.sub_minute m || Timestamp.ltb T.sub_minute cr) = true →
      ∀ st' dest, copy_entry st.store e = some (st', dest) →
        processEntry st e
          = { st with store := st', index := st.index ++ [(st.timestamp, c)] }) ∧
    ((Timestamp.ltb T.sub_minute m || Timestamp.ltb T.sub_minute cr) = false →
      processEntry st e = { st with index := st.index ++ [(T, c)] }) := by
  constructor
  · intro hcond st' dest hcopy
    rw [processEntry]
    rw [show is_entry_already_backed_up st e = none from by
      simp [is_entry_already_backed_up, hb, hc, hfind, hmeta, hm, hcr, hcond]]
    rw [copy_and_index_entry, hcopy]
    simp [index_entry, hc]
  · intro hcond
    rw [processEntry]
    rw [show is_entry_already_backed_up st e = some T from by
      simp [is_entry_already_backed_up, hb, hc, hfind, hmeta, hm, hcr, hcond]]
    simp [index_entry, hc]

/-- Witness for C1 (amended), unchanged branch: a file in the baseline with
both metadata times old keeps the baseline timestamp and copies nothing. -/
theorem C1_incremental_decision_witness :
    processEntry
      (SnapState.mk (Timestamp.mk 2021 7 16 9 0) [] []
        (some [([Component.rootDir, Component.normal "a"], Timestamp.mk 2021 7 15 18 34)]))
      (FsEntry.mk (some [Component.rootDir, Component.normal "a"]) FType.file [104]
        true (some (Timestamp.mk 2021 7 15 10 0)) (some (Timestamp.mk 2021 7 15 9 0))
        true none none none)
      = { SnapState.mk (Timestamp.mk 2021 7 16 9 0) [] []
            (some [([Component.rootDir, Component.normal "a"],
              Timestamp.mk 2021 7 15 18 34)]) with
          index := [] ++ [(Timestamp.mk 2021 7 15 18 34,
            [Component.rootDir, Component.normal "a"])] } :=
  (C1_incremental_decision
    (SnapState.mk (Timestamp.mk 2021 7 16 9 0) [] []
      (some [([Component.rootDir, Component.normal "a"], Timestamp.mk 2021 7 15 18 34)]))
    (FsEntry.mk (some [Component.rootDir, Component.normal "a"]) FType.file [104]
      true (some (Timestamp.mk 2021 7 15 10 0)) (some (Timestamp.mk 2021 7 15 9 0))
      true none none none)
    [([Component.rootDir, Component.normal "a"], Timestamp.mk 2021 7 15 18 34)]
    [Component.rootDir, Component.normal "a"]
    (Timestamp.mk 2021 7 15 18 34) (Timestamp.mk 2021 7 15 10 0)
    (Timestamp.mk 2021 7 15 9 0)
    rfl rfl (by decide) rfl rfl rfl).2 (by decide)

/-- C10 counterexample: an entry present in the baseline whose
`symlink_metadata` read fails.  `is_entry_already_backed_up` indeed reports
no previous timestamp, but the entry is NOT copied and indexed with the new
timestamp — `copy_entry` fails on the same metadata read, so the state is
returned unchanged and the node is skipped entirely. -/
theorem C10_counterexample :
    is_entry_already_backed_up
      (SnapState.mk (Timestamp.mk 2021 7 16 9 0) [] []
        (some [([Component.rootDir, Component.normal "a"], Timestamp.mk 2021 7 15 18 34)]))
      (FsEntry.mk (some [Component.rootDir, Component.normal "a"]) FType.file [104]
        false (some (Timestamp.mk 2021 7 15 10 0)) (some (Timestamp.mk 2021 7 15 9 0))
        true none none none) = none ∧
    processEntry
      (SnapState.mk (Timestamp.mk 2021 7 16 9 0) [] []
        (some [([Component.rootDir, Component.normal "a"], Timestamp.mk 2021 7 15 18 34)]))
      (FsEntry.mk (some [Component.rootDir, Component.normal "a"]) FType.file [104]
        false (some (Timestamp.mk 2021 7 15 10 0)) (some (Timestamp.mk 2021 7 15 9 0))
        true none none none)
      = SnapState.mk (Timestamp.mk 2021 7 16 9 0) [] []
          (some [([Component.rootDir, Component.normal "a"],
            Timestamp.mk 2021 7 15 18 34)]) := by
  constructor <;> decide

/-- C10 (amended).  For an entry whose canonical path the baseline records:
if reading the modification or the creation time fails,
`is_entry_already_backed_up` reports no previous timestamp and the entry is
copied and indexed with the new snapshot's own timestamp (whenever the copy
itself succeeds) — so on a filesystem that exposes no creation time an
incremental snapshot skips nothing and recopies every entry; if instead the
symlink-metadata read fails, the entry is likewise not treated as already
backed up, but the copy fails on the same read and the node is skipped —
neither copied nor indexed. -/
theorem C10_metadata_failure_means_copy (st : SnapState) (e : FsEntry)
    (b : List (List Component × Timestamp)) (c : List Component) (T : Timestamp)
    (hb : st.base = some b) (hc : e.canonical = some c)
    (hfind : findInBase b c = some T) :
    (e.metaOk = false →
      is_entry_already_backed_up st e = none ∧ processEntry st e = st) ∧
    (e.metaOk = true → (e.mtime = none ∨ e.ctime = none) →
      is_entry_already_backed_up st e = none ∧
      ∀ st' dest, copy_entry st.store e = some (st', dest) →
        processEntry st e
          = { st with store := st', index := st.index ++ [(st.timestamp, c)] }) := by
  constructor
  · intro hmeta
    have hnone : is_entry_already_backed_up st e = none := by
      simp [is_entry_already_backed_up, hb, hc, hfind, hmeta]
    refine ⟨hnone, ?_⟩
    rw [processEntry, hnone, copy_and_index_entry]
    rw [show copy_entry st.store e = none from by simp [copy_entry, hmeta]]
  · intro hmeta htime
    have hnone : is_entry_already_backed_up st e = none := by
      rcases htime with h | h
      · simp [is_entry_already_backed_up, hb, hc, hfind, hmeta, h]
      · rcases hm : e.mtime with _ | m
        · simp [is_entry_already_backed_up, hb, hc, hfind, hmeta, hm]
        · simp [is_entry_already_backed_up, hb, hc, hfind, hmeta, hm, h]
    refine ⟨hnone, ?_⟩
    intro st' dest hcopy
    rw [processEntry, hnone, copy_and_index_entry, hcopy]
    simp [index_entry, hc]

/-- Witness for C10 (amended): creation time unavailable, modification time
old — the entry is copied and indexed with the new snapshot's own
timestamp. -/
theorem C10_metadata_failure_means_copy_witness :
    is_entry_already_backed_up
      (SnapState.mk (Timestamp.mk 2021 7 16 9 0) [] []
        (some [([Component.rootDir, Component.normal "a"], Timestamp.mk 2021 7 15 18 34)]))
      (FsEntry.mk (some [Component.rootDir, Component.normal "a"]) FType.file [104]
        true (some (Timestamp.mk 2021 7 15 10 0)) none true none none none) = none ∧
    ∀ st' dest,
      copy_entry [] (FsEntry.mk (some [Component.rootDir, Component.normal "a"])
        FType.file [104] true (some (Timestamp.mk 2021 7 15 10 0)) none true none none
        none) = some (st', dest) →
      processEntry
        (SnapState.mk (Timestamp.mk 2021 7 16 9 0) [] []
          (some [([Component.rootDir, Component.normal "a"],
            Timestamp.mk 2021 7 15 18 34)]))
        (FsEntry.mk (some [Component.rootDir, Component.normal "a"]) FType.file [104]
          true (some (Timestamp.mk 2021 7 15 10 0)) none true none none none)
        = { SnapState.mk (Timestamp.mk 2021 7 16 9 0) [] []
              (some [([Component.rootDir, Component.normal "a"],
                Timestamp.mk 2021 7 15 18 34)]) with
            store := st'
            index := [] ++ [(Timestamp.mk 2021 7 16 9 0,
              [Component.rootDir, Component.normal "a"])] } :=
  (C10_metadata_failure_means_copy
    (SnapState.mk (Timestamp.mk 2021 7 16 9 0) [] []
      (some [([Component.rootDir, Component.normal "a"], Timestamp.mk 2021 7 15 18 34)]))
    (FsEntry.mk (some [Component.rootDir, Component.normal "a"]) FType.file [104]
      true (some (Timestamp.mk 2021 7 15 10 0)) none true none none none)
    [([Component.rootDir, Component.normal "a"], Timestamp.mk 2021 7 15 18 34)]
    [Component.rootDir, Component.normal "a"] (Timestamp.mk 2021 7 15 18 34)
    rfl rfl (by decide)).2 rfl (Or.inr rfl)

/-! #### Store lemmas for the full-snapshot theorem (C3) -/

theorem lookupStore_set_self (st : Store) (k : List String) (v : StoreNode) :
    lookupStore (setStore st k v) k = some v := by
  induction st with
  | nil => simp [setStore, lookupStore]
  | cons p rest ih =>
    obtain ⟨k', v'⟩ := p
    by_cases h : k' = k
    · simp [setStore, h, lookupStore]
    · simp [setStore, h, lookupStore, ih]

theorem lookupStore_set_other (st : Store) {k q : List String} (v : StoreNode)
    (h : q ≠ k) : lookupStore (setStore st k v) q = lookupStore st q := by
  induction st with
  | nil => simp [setStore, lookupStore, Ne.symm h]
  | cons p rest ih =>
    obtain ⟨k', v'⟩ := p
    by_cases hp : k' = k
    · subst hp
      simp [setStore, lookupStore, Ne.symm h]
    · by_cases hq : k' = q
      · simp [setStore, hp, lookupStore, hq, h]
      · simp [setStore, hp, lookupStore, hq, h, ih]

theorem mem_setStore {st : Store} {k q : List String} {v w : StoreNode}
    (h : (q, w) ∈ setStore st k v) : (q = k ∧ w = v) ∨ (q, w) ∈ st := by
  induction st with
  | nil =>
    simp only [setStore, List.mem_singleton, Prod.mk.injEq] at h
    exact Or.inl h
  | cons p rest ih =>
    obtain ⟨k', v'⟩ := p
    by_cases hp : k' = k
    · rw [show setStore ((k', v') :: rest) k v = (k, v) :: rest from by
        simp [setStore, hp]] at h
      rcases List.mem_cons.mp h with h | h
      · exact Or.inl (by simpa [Prod.ext_iff] using h)
      · exact Or.inr (List.mem_cons_of_mem _ h)
    · rw [show setStore ((k', v') :: rest) k v = (k', v') :: setStore rest k v from by
        simp [setStore, hp]] at h
      rcases List.mem_cons.mp h with h | h
      · exact Or.inr (by simp [h])
      · rcases ih h with h | h
        · exact Or.inl h
        · exact Or.inr (List.mem_cons_of_mem _ h)

theorem lookupStore_mem {st : Store} {k : List String} {v : StoreNode}
    (h : lookupStore st k = some v) : (k, v) ∈ st := by
  induction st with
  | nil => simp [lookupStore] at h
  | cons p rest ih =>
    obtain ⟨k', v'⟩ := p
    by_cases hp : k' = k
    · rw [show lookupStore ((k', v') :: rest) k = some v' from by
        simp [lookupStore, hp]] at h
      subst hp
      simp only [Option.some.injEq] at h
      simp [h]
    · rw [show lookupStore ((k', v') :: rest) k = lookupStore rest k from by
        simp [lookupStore, hp]] at h
      exact List.mem_cons_of_mem _ (ih h)

theorem isPrefixOf_take (l : List String) (n : Nat) :
    List.isPrefixOf (l.take n) l = true := by
  rw [List.isPrefixOf_iff_prefix]
  exact List.take_prefix n l

theorem isPrefixOf_trans {a b c : List String} (h1 : List.isPrefixOf a b = true)
    (h2 : List.isPrefixOf b c = true) : List.isPrefixOf a c = true := by
  rw [List.isPrefixOf_iff_prefix] at *
  exact h1.trans h2

theorem isPrefixOf_length_le {a b : List String} (h : List.isPrefixOf a b = true) :
    a.length ≤ b.length := by
  rw [List.isPrefixOf_iff_prefix] at h
  exact h.length_le

theorem mem_dirChain_iff {d k : List String} :
    d ∈ dirChain k ↔ ∃ i, i < k.length ∧ d = k.take (i + 1) := by
  simp only [dirChain, List.mem_map, List.mem_range]
  constructor
  · rintro ⟨i, hi, rfl⟩
    exact ⟨i, hi, rfl⟩
  · rintro ⟨i, hi, rfl⟩
    exact ⟨i, hi, rfl⟩

theorem dirChain_pref {d k : List String} (h : d ∈ dirChain k) :
    List.isPrefixOf d k = true := by
  obtain ⟨i, _, rfl⟩ := mem_dirChain_iff.mp h
  exact isPrefixOf_take k (i + 1)

theorem dirChain_length {d k : List String} (h : d ∈ dirChain k) :
    1 ≤ d.length ∧ d.length ≤ k.length := by
  obtain ⟨i, hi, rfl⟩ := mem_dirChain_iff.mp h
  rw [List.length_take]
  omega

theorem self_mem_dirChain {k : List String} (h : k ≠ []) : k ∈ dirChain k := by
  rw [mem_dirChain_iff]
  refine ⟨k.length - 1, by
    have := List.length_pos.mpr h
    omega, ?_⟩
  rw [show k.length - 1 + 1 = k.length from by
    have := List.length_pos.mpr h
    omega]
  exact (List.take_length k).symm

theorem dirChain_ne_length_lt {d k : List String} (h : d ∈ dirChain k) (hne : d ≠ k) :
    d.length < k.length := by
  obtain ⟨i, hi, rfl⟩ := mem_dirChain_iff.mp h
  rcases Nat.lt_or_ge (i + 1) k.length with hlt | hge
  · rw [List.length_take]
    omega
  · exfalso
    have : i + 1 = k.length := by omega
    rw [this, List.take_length] at hne
    exact hne rfl

theorem createDirs_fold (chain : List (List String)) :
    ∀ st : Store,
      (∀ d ∈ chain, lookupStore st d = none ∨ lookupStore st d = some StoreNode.dir) →
      ∃ st', chain.foldl createDirStep (some st) = some st' ∧
        (∀ q v, (q, v) ∈ st' → (q, v) ∈ st ∨ (v = StoreNode.dir ∧ q ∈ chain)) ∧
        (∀ d ∈ chain, lookupStore st' d = some StoreNode.dir) ∧
        (∀ q, q ∉ chain → lookupStore st' q = lookupStore st q) := by
  induction chain with
  | nil =>
    intro st _
    exact ⟨st, rfl, fun q v h => Or.inl h, by simp, fun q _ => rfl⟩
  | cons d ds ih =>
    intro st hcond
    have hstep : ∃ s1, createDirStep (some st) d = some s1 ∧
        ((s1 = setStore st d StoreNode.dir ∧ lookupStore st d = none) ∨
          (s1 = st ∧ lookupStore st d = some StoreNode.dir)) := by
      rcases hcond d (by simp) with h | h
      · exact ⟨setStore st d StoreNode.dir, by simp [createDirStep, h], Or.inl ⟨rfl, h⟩⟩
      · exact ⟨st, by simp [createDirStep, h], Or.inr ⟨rfl, h⟩⟩
    obtain ⟨s1, hs1, hcase⟩ := hstep
    have hlook1 : lookupStore s1 d = some StoreNode.dir := by
      rcases hcase with ⟨rfl, _⟩ | ⟨rfl, h⟩
      · exact lookupStore_set_self st d StoreNode.dir
      · exact h
    have hpres1 : ∀ q, q ≠ d → lookupStore s1 q = lookupStore st q := by
      intro q hq
      rcases hcase with ⟨rfl, _⟩ | ⟨rfl, _⟩
      · exact lookupStore_set_other st StoreNode.dir hq
      · rfl
    have hmem1 : ∀ q v, (q, v) ∈ s1 → (q, v) ∈ st ∨ (v = StoreNode.dir ∧ q = d) := by
      intro q v hm
      rcases hcase with ⟨rfl, _⟩ | ⟨rfl, _⟩
      · rcases mem_setStore hm with ⟨h1, h2⟩ | h
        · exact Or.inr ⟨h2, h1⟩
        · exact Or.inl h
      · exact Or.inl hm
    have hcond1 : ∀ x ∈ ds, lookupStore s1 x = none ∨
        lookupStore s1 x = some StoreNode.dir := by
      intro x hx
      by_cases hxd : x = d
      · subst hxd
        exact Or.inr hlook1
      · rw [hpres1 x hxd]
        exact hcond x (by simp [hx])
    obtain ⟨st', hfold, hmem, hchain, hout⟩ := ih s1 hcond1
    refine ⟨st', ?_, ?_, ?_, ?_⟩
    · rw [List.foldl_cons, hs1]
      exact hfold
    · intro q v hm
      rcases hmem q v hm with h | ⟨hv, hq⟩
      · rcases hmem1 q v h with h | ⟨hv, hq⟩
        · exact Or.inl h
        · exact Or.inr ⟨hv, by simp [hq]⟩
      · exact Or.inr ⟨hv, by simp [hq]⟩
    · intro x hx
      rcases List.mem_cons.mp hx with rfl | hx
      · by_cases hxds : x ∈ ds
        · exact hchain x hxds
        · rw [hout x hxds]
          exact hlook1
      · exact hchain x hx
    · intro q hq
      have hq1 : q ∉ ds := fun h => hq (by simp [h])
      have hq2 : q ≠ d := fun h => hq (by simp [h])
      rw [hout q hq1, hpres1 q hq2]

/-- The mapped store location of a walked node. -/
def mappedPath (e : FsEntry) : List String :=
  join_components_to_relative_path (e.canonical.getD [])

/-- The store node a cleanly copied dir/file source node becomes. -/
def mkStoreNode (e : FsEntry) : StoreNode :=
  match e.ftype with
  | FType.file => StoreNode.file e.content
  | _ => StoreNode.dir

/-- Hypotheses of the full-snapshot claim: all nodes readable and copyable
(dirs and files only), mapped locations distinct and nonempty, and the
nodes form a tree (a node whose location sits strictly above another's is a
directory). -/
def C3Clean (nodes : List FsEntry) : Prop :=
  (∀ e ∈ nodes, e.metaOk = true ∧ e.copyOk = true ∧ e.canonical ≠ none ∧
    (e.ftype = FType.dir ∨ e.ftype = FType.file) ∧ mappedPath e ≠ []) ∧
  (nodes.map mappedPath).Nodup ∧
  (∀ e1 ∈ nodes, ∀ e2 ∈ nodes, mappedPath e1 ≠ mappedPath e2 →
    List.isPrefixOf (mappedPath e1) (mappedPath e2) = true → e1.ftype = FType.dir)

/-- The invariant a full snapshot maintains along its walk: `pre` are the
nodes already processed; the index lists exactly their canonical paths with
the snapshot's own timestamp, the store holds each of them at its mapped
location, and every store binding is a processed node or an ancestor
directory created for one. -/
def C3Inv (ts : Timestamp) (pre : List FsEntry) (st : SnapState) : Prop :=
  st.timestamp = ts ∧ st.base = none ∧
  st.index = pre.map (fun e => (ts, e.canonical.getD [])) ∧
  (∀ e ∈ pre, lookupStore st.store (mappedPath e) = some (mkStoreNode e)) ∧
  (∀ k v, (k, v) ∈ st.store →
    (∃ e ∈ pre, k = mappedPath e ∧ v = mkStoreNode e) ∨
    (v = StoreNode.dir ∧ ∃ e ∈ pre, k ≠ mappedPath e ∧
      List.isPrefixOf k (mappedPath e) = true))

theorem C3_step (ts : Timestamp) (pre post : List FsEntry) (e : FsEntry)
    (st : SnapState) (hclean : C3Clean (pre ++ e :: post)) (hInv : C3Inv ts pre st) :
    C3Inv ts (pre ++ [e]) (processEntry st e) := by
  obtain ⟨hok, hnodup, htree⟩ := hclean
  obtain ⟨hts, hbase, hidx, hlook, hmem⟩ := hInv
  obtain ⟨hmeta, hcopyok, hcanon, hft, hneD⟩ := hok e (by simp)
  rcases hc : e.canonical with _ | c
  · exact absurd hc hcanon
  have hmapped : join_components_to_relative_path c = mappedPath e := by
    simp [mappedPath, hc]
  have hnotpre : ∀ e' ∈ pre, mappedPath e' ≠ mappedPath e := by
    intro e' he' heq
    have h := hnodup
    rw [List.map_append] at h
    have hdis := (List.nodup_append.mp h).2.2
    exact hdis (List.mem_map_of_mem _ he') (by
      rw [heq]
      exact List.mem_map_of_mem _ (by simp))
  have hstorePref : ∀ d, List.isPrefixOf d (mappedPath e) = true →
      lookupStore st.store d = none ∨ lookupStore st.store d = some StoreNode.dir := by
    intro d hpref
    rcases hl : lookupStore st.store d with _ | v
    · exact Or.inl rfl
    · right
      have hmm := lookupStore_mem hl
      rcases hmem d v hmm with ⟨e', he', hd, hv⟩ | ⟨hv, _⟩
      · have hne2 : mappedPath e' ≠ mappedPath e := hnotpre e' he'
        have hdir : e'.ftype = FType.dir :=
          htree e' (by simp [he']) e (by simp) hne2 (by rw [← hd]; exact hpref)
        rw [hv, mkStoreNode, hdir]
      · rw [hv]
  have hdest_file : e.ftype = FType.file →
      lookupStore st.store (mappedPath e) = none := by
    intro hfile
    rcases hl : lookupStore st.store (mappedPath e) with _ | v
    · rfl
    · exfalso
      have hmm := lookupStore_mem hl
      rcases hmem _ v hmm with ⟨e', he', hd, _⟩ | ⟨_, e', he', hne', hpref⟩
      · exact hnotpre e' he' hd.symm
      · have : e.ftype = FType.dir :=
          htree e (by simp) e' (by simp [he']) hne' hpref
        rw [hfile] at this
        exact FType.noConfusion this
  have hrun : processEntry st e = copy_and_index_entry st e := by
    rw [processEntry, show is_entry_already_backed_up st e = none from by
      simp [is_entry_already_backed_up, hbase]]
  rcases hft with hftd | hftf
  · -- directory branch: create_dir_all on the whole chain of the mapped path
    have hchaincond : ∀ d ∈ dirChain (mappedPath e),
        lookupStore st.store d = none ∨ lookupStore st.store d = some StoreNode.dir :=
      fun d hd => hstorePref d (dirChain_pref hd)
    obtain ⟨st', hfold, hmemS, hchainS, houtS⟩ :=
      createDirs_fold (dirChain (mappedPath e)) st.store hchaincond
    have hcopyeq : copy_entry st.store e = some (st', mappedPath e) := by
      rw [copy_entry]
      simp only [hmeta, Bool.not_true, Bool.false_eq_true, if_false]
      rw [hftd, hc]
      simp only
      rw [hmapped, createDirAll, hfold]
    have hresult : processEntry st e
        = { st with store := st', index := st.index ++ [(st.timestamp, c)] } := by
      rw [hrun, copy_and_index_entry, hcopyeq]
      simp [index_entry, hc]
    rw [hresult]
    refine ⟨hts, hbase, ?_, ?_, ?_⟩
    · simp only [hidx, hts, List.map_append, List.map_cons, List.map_nil]
      simp [hc]
    · intro e' he'
      rcases List.mem_append.mp he' with he' | he'
      · by_cases hchain : mappedPath e' ∈ dirChain (mappedPath e)
        · have hdir : e'.ftype = FType.dir :=
            htree e' (by simp [he']) e (by simp) (hnotpre e' he')
              (dirChain_pref hchain)
          show lookupStore st' (mappedPath e') = some (mkStoreNode e')
          rw [hchainS _ hchain, mkStoreNode, hdir]
        · show lookupStore st' (mappedPath e') = some (mkStoreNode e')
          rw [houtS _ hchain]
          exact hlook e' he'
      · have he'' : e' = e := by simpa using he'
        subst he''
        show lookupStore st' (mappedPath e') = some (mkStoreNode e')
        rw [hchainS _ (self_mem_dirChain hneD), mkStoreNode, hftd]
    · intro k v hkv
      rcases hmemS k v hkv with h | ⟨hv, hk⟩
      · rcases hmem k v h with ⟨e', he', h1, h2⟩ | ⟨hv, e', he', h1, h2⟩
        · exact Or.inl ⟨e', by simp [he'], h1, h2⟩
        · exact Or.inr ⟨hv, e', by simp [he'], h1, h2⟩
      · by_cases hkd : k = mappedPath e
        · refine Or.inl ⟨e, by simp, hkd, ?_⟩
          rw [hv, mkStoreNode, hftd]
        · exact Or.inr ⟨hv, e, by simp, hkd, dirChain_pref hk⟩
  · -- file branch: ensure the parent directories, then write the bytes
    have hparpref : List.isPrefixOf (mappedPath e).dropLast (mappedPath e) = true := by
      rw [List.isPrefixOf_iff_prefix]
      exact List.dropLast_prefix _
    have hparlen : (mappedPath e).dropLast.length < (mappedPath e).length := by
      rw [List.length_dropLast]
      have := List.length_pos.mpr hneD
      omega
    have hchain_dest : ∀ d ∈ dirChain (mappedPath e).dropLast,
        List.isPrefixOf d (mappedPath e) = true ∧ d ≠ mappedPath e := by
      intro d hd
      have h1 := dirChain_pref hd
      have h2 := (dirChain_length hd).2
      refine ⟨isPrefixOf_trans h1 hparpref, ?_⟩
      intro heq
      rw [heq] at h2
      omega
    have hwp : ∃ st1,
        (if (mappedPath e).dropLast ≠ [] ∧
            lookupStore st.store (mappedPath e).dropLast = none then
          createDirAll st.store (mappedPath e).dropLast
        else some st.store) = some st1 ∧
        (∀ q v, (q, v) ∈ st1 → (q, v) ∈ st.store ∨
          (v = StoreNode.dir ∧ q ≠ mappedPath e ∧
            List.isPrefixOf q (mappedPath e) = true)) ∧
        lookupStore st1 (mappedPath e) = lookupStore st.store (mappedPath e) ∧
        (∀ e' ∈ pre, lookupStore st1 (mappedPath e')
          = some (mkStoreNode e')) := by
      by_cases hpar : (mappedPath e).dropLast ≠ [] ∧
          lookupStore st.store (mappedPath e).dropLast = none
      · have hchaincond : ∀ d ∈ dirChain (mappedPath e).dropLast,
            lookupStore st.store d = none ∨
              lookupStore st.store d = some StoreNode.dir :=
          fun d hd => hstorePref d (hchain_dest d hd).1
        obtain ⟨st1, hfold, hmemS, hchainS, houtS⟩ :=
          createDirs_fold (dirChain (mappedPath e).dropLast) st.store hchaincond
        refine ⟨st1, ?_, ?_, ?_, ?_⟩
        · rw [if_pos hpar, createDirAll, hfold]
        · intro q v hqv
          rcases hmemS q v hqv with h | ⟨hv, hq⟩
          · exact Or.inl h
          · exact Or.inr ⟨hv, (hchain_dest q hq).2, (hchain_dest q hq).1⟩
        · refine houtS _ ?_
          intro hmemchain
          exact (hchain_dest _ hmemchain).2 rfl
        · intro e' he'
          by_cases hchain : mappedPath e' ∈ dirChain (mappedPath e).dropLast
          · have hdir : e'.ftype = FType.dir :=
              htree e' (by simp [he']) e (by simp) (hnotpre e' he')
                (hchain_dest _ hchain).1
            rw [hchainS _ hchain, mkStoreNode, hdir]
          · rw [houtS _ hchain]
            exact hlook e' he'
      · exact ⟨st.store, by rw [if_neg hpar], fun q v h => Or.inl h, rfl,
          fun e' he' => hlook e' he'⟩
    obtain ⟨st1, hif, hmem1, hdest1, hpre1⟩ := hwp
    have hdestnone : lookupStore st1 (mappedPath e) = none := by
      rw [hdest1]
      exact hdest_file hftf
    have hcopyeq : copy_entry st.store e
        = some (setStore st1 (mappedPath e) (StoreNode.file e.content),
            mappedPath e) := by
      rw [copy_entry]
      simp only [hmeta, Bool.not_true, Bool.false_eq_true, if_false]
      rw [hftf, hc]
      simp only [hmapped]
      rw [hif]
      simp only
      rw [if_pos ⟨hcopyok, by
        rw [hdestnone]
        intro hcon
        exact Option.noConfusion hcon⟩]
    have hresult : processEntry st e
        = { st with
            store := setStore st1 (mappedPath e) (StoreNode.file e.content)
            index := st.index ++ [(st.timestamp, c)] } := by
      rw [hrun, copy_and_index_entry, hcopyeq]
      simp [index_entry, hc]
    rw [hresult]
    refine ⟨hts, hbase, ?_, ?_, ?_⟩
    · simp only [hidx, hts, List.map_append, List.map_cons, List.map_nil]
      simp [hc]
    · intro e' he'
      rcases List.mem_append.mp he' with he' | he'
      · show lookupStore _ (mappedPath e') = some (mkStoreNode e')
        rw [lookupStore_set_other st1 _ (hnotpre e' he')]
        exact hpre1 e' he'
      · have he'' : e' = e := by simpa using he'
        subst he''
        show lookupStore _ (mappedPath e') = some (mkStoreNode e')
        rw [lookupStore_set_self, mkStoreNode, hftf]
    · intro k v hkv
      rcases mem_setStore hkv with ⟨hk, hv⟩ | h
      · refine Or.inl ⟨e, by simp, hk, ?_⟩
        rw [hv, mkStoreNode, hftf]
      · rcases hmem1 k v h with h | ⟨hv, hk1, hk2⟩
        · rcases hmem k v h with ⟨e', he', h1, h2⟩ | ⟨hv, e', he', h1, h2⟩
          · exact Or.inl ⟨e', by simp [he'], h1, h2⟩
          · exact Or.inr ⟨hv, e', by simp [he'], h1, h2⟩
        · exact Or.inr ⟨hv, e, by simp, hk1, hk2⟩

theorem C3_fold (ts : Timestamp) :
    ∀ (rest pre : List FsEntry) (st : SnapState),
      C3Clean (pre ++ rest) → C3Inv ts pre st →
      C3Inv ts (pre ++ rest) (add_files_to_snapshot st (rest.map Except.ok)) := by
  intro rest
  induction rest with
  | nil =>
    intro pre st _ hInv
    simpa [add_files_to_snapshot] using hInv
  | cons e rest ih =>
    intro pre st hclean hInv
    have hstep := C3_step ts pre rest e st hclean hInv
    have hrw : add_files_to_snapshot st ((e :: rest).map Except.ok)
        = add_files_to_snapshot (processEntry st e) (rest.map Except.ok) := by
      simp [add_files_to_snapshot]
    rw [hrw]
    have := ih (pre ++ [e]) (processEntry st e) (by simpa using hclean) hstep
    simpa using this

/-- C3.  A full (non-incremental) snapshot over a tree of N readable,
copyable nodes (directories and files, distinct nonempty mapped locations,
ancestors being directories) produces exactly N index entries — one per
node, in walk order, every one carrying the snapshot's own timestamp and
the node's canonical path — and a files store that mirrors the tree: each
node's bytes sit at its mapped location, and every store binding is either
the copy of some walked node or an ancestor directory created for one. -/
theorem C3_full_snapshot (ts : Timestamp) (nodes : List FsEntry)
    (hclean : C3Clean nodes) :
    (add_files_to_snapshot (SnapState.mk ts [] [] none) (nodes.map Except.ok)).index.length
      = nodes.length ∧
    (add_files_to_snapshot (SnapState.mk ts [] [] none) (nodes.map Except.ok)).index
      = nodes.map (fun e => (ts, e.canonical.getD [])) ∧
    (∀ e ∈ nodes,
      lookupStore (add_files_to_snapshot (SnapState.mk ts [] [] none)
        (nodes.map Except.ok)).store (mappedPath e) = some (mkStoreNode e)) ∧
    (∀ k v, (k, v) ∈ (add_files_to_snapshot (SnapState.mk ts [] [] none)
        (nodes.map Except.ok)).store →
      (∃ e ∈ nodes, k = mappedPath e ∧ v = mkStoreNode e) ∨
      (v = StoreNode.dir ∧ ∃ e ∈ nodes, k ≠ mappedPath e ∧
        List.isPrefixOf k (mappedPath e) = true)) := by
  have hInv0 : C3Inv ts [] (SnapState.mk ts [] [] none) := by
    refine ⟨rfl, rfl, rfl, ?_, ?_⟩
    · intro e he
      exact absurd he (List.not_mem_nil e)
    · intro k v hkv
      exact absurd hkv (List.not_mem_nil (k, v))
  have h := C3_fold ts nodes [] (SnapState.mk ts [] [] none) (by simpa using hclean)
    hInv0
  rw [List.nil_append] at h
  obtain ⟨_, _, hidx, hlook, hmem⟩ := h
  refine ⟨?_, hidx, hlook, hmem⟩
  rw [hidx, List.length_map]

/-- Witness for C3: the spec's concrete scenario — a directory `/a` holding
one file `/a/f.txt` with content `hello` — yields exactly the two index
entries with the snapshot's own timestamp, and the bytes stored at
`a/f.txt`. -/
theorem C3_full_snapshot_witness :
    (add_files_to_snapshot
      (SnapState.mk (Timestamp.mk 2021 7 15 18 34) [] [] none)
      ([FsEntry.mk (some [Component.rootDir, Component.normal "a"]) FType.dir []
          true none none true none none none,
        FsEntry.mk (some [Component.rootDir, Component.normal "a",
          Component.normal "f.txt"]) FType.file [104, 101, 108, 108, 111]
          true none none true none none none].map Except.ok)).index
      = [(Timestamp.mk 2021 7 15 18 34, [Component.rootDir, Component.normal "a"]),
         (Timestamp.mk 2021 7 15 18 34, [Component.rootDir, Component.normal "a",
           Component.normal "f.txt"])] ∧
    lookupStore (add_files_to_snapshot
      (SnapState.mk (Timestamp.mk 2021 7 15 18 34) [] [] none)
      ([FsEntry.mk (some [Component.rootDir, Component.normal "a"]) FType.dir []
          true none none true none none none,
        FsEntry.mk (some [Component.rootDir, Component.normal "a",
          Component.normal "f.txt"]) FType.file [104, 101, 108, 108, 111]
          true none none true none none none].map Except.ok)).store
      ["a", "f.txt"] = some (StoreNode.file [104, 101, 108, 108, 111]) := by
  constructor
  · have h := (C3_full_snapshot (Timestamp.mk 2021 7 15 18 34)
      [FsEntry.mk (some [Component.rootDir, Component.normal "a"]) FType.dir []
          true none none true none none none,
        FsEntry.mk (some [Component.rootDir, Component.normal "a",
          Component.normal "f.txt"]) FType.file [104, 101, 108, 108, 111]
          true none none true none none none] (by
        refine ⟨?_, ?_, ?_⟩ <;> decide)).2.1
    simpa using h
  · have h := (C3_full_snapshot (Timestamp.mk 2021 7 15 18 34)
      [FsEntry.mk (some [Component.rootDir, Component.normal "a"]) FType.dir []
          true none none true none none none,
        FsEntry.mk (some [Component.rootDir, Component.normal "a",
          Component.normal "f.txt"]) FType.file [104, 101, 108, 108, 111]
          true none none true none none none] (by
        refine ⟨?_, ?_, ?_⟩ <;> decide)).2.2.1
      (FsEntry.mk (some [Component.rootDir, Component.normal "a",
          Component.normal "f.txt"]) FType.file [104, 101, 108, 108, 111]
          true none none true none none none) (by decide)
    simpa [mappedPath, mkStoreNode, join_components_to_relative_path] using h

end Mizeria
